import Mathlib

/-!
# Verification of the UACP workflow engine (SDK core)

Shallow embedding of the orchestration engine of the UACP SDK:

* `src/sdk/src/utils/retry.ts` — `retry` / `calculateDelay` and the
  `CircuitBreaker` class;
* `src/sdk/src/workflow.ts` — the `AgentWorkflow` builder (`build`,
  `validate`, `detectCycles`);
* `src/sdk/src/orchestrator.ts` — `resolveExecutionOrder`,
  `executeWorkflow`, `executeStep`, `executeParallelGroup`,
  `buildTaskWithContext`, `rollback`.

JavaScript values carried in task payloads are modelled by the inductive
type `Val`; JS objects (`Record<string, unknown>`) are modelled as
insertion-ordered association lists with the object-literal update
semantics (`objSet`).  Recursion that the source performs over the
dependency graph is modelled with an explicit fuel parameter; the fuel
bounds chosen are proved sufficient, so the fuel-exhaustion outcome is
unreachable wherever the source terminates.  Asynchronous dispatch is
modelled by outcome/duration oracles (`out`, `dur`), and `Promise.all`
over a parallel group by sequentially executing every member (all member
promises are started eagerly in the source, so every member runs and
records its result).
-/

set_option maxHeartbeats 1000000

namespace UACP

/-! ## JavaScript values and objects -/

/-- A JavaScript value as carried in task payloads. -/
inductive Val where
  | vNull : Val
  | vBool : Bool → Val
  | vNum : Int → Val
  | vStr : String → Val
  | vObj : List (String × Val) → Val

mutual

/-- Boolean equality on `Val` (structural). -/
def Val.beq : Val → Val → Bool
  | .vNull, .vNull => true
  | .vBool a, .vBool b => a == b
  | .vNum a, .vNum b => a == b
  | .vStr a, .vStr b => a == b
  | .vObj a, .vObj b => Val.beqList a b
  | _, _ => false

/-- Boolean equality on object field lists. -/
def Val.beqList : List (String × Val) → List (String × Val) → Bool
  | [], [] => true
  | p :: t1, q :: t2 => p.1 == q.1 && Val.beq p.2 q.2 && Val.beqList t1 t2
  | _, _ => false

end

mutual

theorem Val.beq_iff : ∀ a b : Val, Val.beq a b = true ↔ a = b
  | .vNull, .vNull => by simp [Val.beq]
  | .vNull, .vBool _ | .vNull, .vNum _ | .vNull, .vStr _ | .vNull, .vObj _ => by
    simp [Val.beq]
  | .vBool _, .vNull | .vBool _, .vNum _ | .vBool _, .vStr _ | .vBool _, .vObj _ => by
    simp [Val.beq]
  | .vBool a, .vBool b => by simp [Val.beq]
  | .vNum _, .vNull | .vNum _, .vBool _ | .vNum _, .vStr _ | .vNum _, .vObj _ => by
    simp [Val.beq]
  | .vNum a, .vNum b => by simp [Val.beq]
  | .vStr _, .vNull | .vStr _, .vBool _ | .vStr _, .vNum _ | .vStr _, .vObj _ => by
    simp [Val.beq]
  | .vStr a, .vStr b => by simp [Val.beq]
  | .vObj _, .vNull | .vObj _, .vBool _ | .vObj _, .vNum _ | .vObj _, .vStr _ => by
    simp [Val.beq]
  | .vObj a, .vObj b => by
    simp [Val.beq, Val.beqList_iff a b]

theorem Val.beqList_iff : ∀ a b : List (String × Val), Val.beqList a b = true ↔ a = b
  | [], [] => by simp [Val.beqList]
  | [], _ :: _ => by simp [Val.beqList]
  | _ :: _, [] => by simp [Val.beqList]
  | p :: t1, q :: t2 => by
    cases p with
    | mk pk pv =>
      cases q with
      | mk qk qv =>
        simp [Val.beqList, Val.beq_iff pv qv, Val.beqList_iff t1 t2,
          and_assoc]

end

instance : DecidableEq Val := fun a b => decidable_of_iff _ (Val.beq_iff a b)

/-- JS truthiness of a value (`if (depData)` in `buildTaskWithContext`). -/
def Val.truthy : Val → Bool
  | .vNull => false
  | .vBool b => b
  | .vNum n => n != 0
  | .vStr s => s != ""
  | .vObj _ => true

/-- A JS object: insertion-ordered association list with unique keys. -/
abbrev Obj := List (String × Val)

/-- JS property write: overwrite in place if the key exists, else append
(object-literal / assignment semantics). -/
def objSet (o : Obj) (k : String) (v : Val) : Obj :=
  if o.any (fun p => p.1 = k) then
    o.map (fun p => if p.1 = k then (k, v) else p)
  else
    o ++ [(k, v)]

/-- JS property read. -/
def objGet (o : Obj) (k : String) : Option Val :=
  (o.find? (fun p => p.1 = k)).map (fun p => p.2)

/-! ## Data model (`src/sdk/src/types/orchestration.ts`) -/

/-- A compensating (rollback) step: `WorkflowRollbackStep`. -/
structure RollbackStep where
  agentId : String
  intent : String
  task : Obj := []
  deriving DecidableEq

/-- A workflow step (`WorkflowStep`).  `dependsOn` absent in TS is
modelled by `[]`; `retries` uses the source's `step.retries || 0`
coalescing, so it is a plain `Nat` defaulting to `0`. -/
structure WStep where
  id : String
  agentId : String := ""
  intent : String := ""
  task : Obj := []
  dependsOn : List String := []
  retries : Nat := 0
  optional : Bool := false
  rollback : Option RollbackStep := none
  deriving DecidableEq

/-- A parallel group (`ParallelGroup`). -/
structure PGroup where
  steps : List WStep
  waitForAll : Bool := true
  continueOnError : Bool := false
  deriving DecidableEq

/-- A built workflow definition (`WorkflowDefinition`).  The
`errorHandlers` JS `Map` is modelled as an association list with unique
keys; lookup is `find?`. -/
structure WorkflowDefinition where
  id : String := ""
  steps : List WStep
  parallelGroups : List PGroup := []
  errorHandlers : List (String × RollbackStep) := []
  timeout : Option Nat := none
  deriving DecidableEq

/-- Lookup in the `errorHandlers` map. -/
def ehGet (hs : List (String × RollbackStep)) (k : String) : Option RollbackStep :=
  (hs.find? (fun p => p.1 = k)).map (fun p => p.2)

/-- Terminal status of a step result (`WorkflowStepStatus`; the
transient `running` state is never observed by the claims). -/
inductive StepStatus where
  | completed
  | failed
  deriving DecidableEq

/-- A recorded step result (`WorkflowStepResult`); `data` is `some` for
completed steps carrying response data. -/
structure StepRes where
  stepId : String
  status : StepStatus
  data : Option Val := none
  deriving DecidableEq

/-- A message dispatched through the router (recipient, intent, task). -/
structure Msg where
  recipient : String
  intent : String
  task : Obj
  deriving DecidableEq

/-! ## RetryPolicy (`src/sdk/src/utils/retry.ts`, lines 26–67)

The asynchronous operation is modelled as a function from the attempt
index (0-based) to an outcome; `E` is the error type, `A` the success
type.  The model returns the final outcome together with the number of
invocations made and the list of back-off delays slept, in order. -/

/-- Retry configuration (`RetryConfig`), with exact natural arithmetic in
place of JS floats. -/
structure RetryConfig where
  maxRetries : Nat
  initialDelay : Nat
  maxDelay : Nat
  backoffMultiplier : Nat
  deriving DecidableEq

/-- `calculateDelay(attempt, config)` =
`min(initialDelay * backoffMultiplier ** attempt, maxDelay)`. -/
def calculateDelay (attempt : Nat) (cfg : RetryConfig) : Nat :=
  min (cfg.initialDelay * cfg.backoffMultiplier ^ attempt) cfg.maxDelay

/-- One run of the `retry` loop body starting at attempt index `attempt`
with `remaining` retries left (`remaining = maxRetries - attempt`).
Returns (final outcome, number of invocations, delays slept). -/
def retryAux {E A : Type} (op : Nat → Except E A) (cfg : RetryConfig) :
    (attempt : Nat) → (remaining : Nat) → Except E A × Nat × List Nat
  | attempt, 0 =>
    match op attempt with
    | .ok v => (.ok v, 1, [])
    | .error e => (.error e, 1, [])
  | attempt, r + 1 =>
    match op attempt with
    | .ok v => (.ok v, 1, [])
    | .error _ =>
      let rest := retryAux op cfg (attempt + 1) r
      (rest.1, rest.2.1 + 1, calculateDelay attempt cfg :: rest.2.2)

/-- `retry(fn, config)`: run the loop from attempt 0 with the full retry
budget. -/
def retryRun {E A : Type} (op : Nat → Except E A) (cfg : RetryConfig) :
    Except E A × Nat × List Nat :=
  retryAux op cfg 0 cfg.maxRetries

/-! ## CircuitBreaker (`src/sdk/src/utils/retry.ts`, lines 106–190) -/

/-- The three circuit states (`CircuitState`). -/
inductive CircuitState where
  | closed
  | open
  | halfOpen
  deriving DecidableEq

/-- `CircuitBreakerConfig`. -/
structure CircuitBreakerConfig where
  failureThreshold : Nat
  resetTimeout : Int
  halfOpenMaxAttempts : Nat
  deriving DecidableEq

/-- Mutable state of a `CircuitBreaker` instance. -/
structure CBState where
  state : CircuitState := .closed
  failureCount : Nat := 0
  lastFailureTime : Int := 0
  halfOpenAttempts : Nat := 0
  deriving DecidableEq

/-- Observable outcome of one `execute` call: either the wrapped
operation was never invoked (the breaker short-circuited by throwing
`'Circuit breaker is OPEN'`), or it was invoked and succeeded/failed. -/
inductive CBOutcome where
  | shortCircuit
  | invoked (success : Bool)
  deriving DecidableEq

/-- `onSuccess()` (lines 154–165). -/
def cbOnSuccess (cfg : CircuitBreakerConfig) (cb : CBState) : CBState :=
  if cb.state = .halfOpen then
    let a := cb.halfOpenAttempts + 1
    if a ≥ cfg.halfOpenMaxAttempts then
      { cb with state := .closed, failureCount := 0, halfOpenAttempts := a }
    else
      { cb with halfOpenAttempts := a }
  else
    { cb with failureCount := 0 }

/-- `onFailure()` (lines 167–178); `now` is `Date.now()`. -/
def cbOnFailure (cfg : CircuitBreakerConfig) (cb : CBState) (now : Int) : CBState :=
  let cb := { cb with failureCount := cb.failureCount + 1, lastFailureTime := now }
  if cb.state = .halfOpen then
    { cb with state := .open }
  else if cb.failureCount ≥ cfg.failureThreshold then
    { cb with state := .open }
  else
    cb

/-- `execute(fn)` (lines 132–152): `now` is the clock reading at the
call, `opSucceeds` tells whether the wrapped operation would succeed if
invoked. -/
def cbExecute (cfg : CircuitBreakerConfig) (cb : CBState) (now : Int)
    (opSucceeds : Bool) : CBOutcome × CBState :=
  let step1 : Option CBState :=
    if cb.state = .open then
      if now - cb.lastFailureTime ≥ cfg.resetTimeout then
        some { cb with state := .halfOpen, halfOpenAttempts := 0 }
      else
        none
    else
      some cb
  match step1 with
  | none => (.shortCircuit, cb)
  | some cb' =>
    if opSucceeds then
      (.invoked true, cbOnSuccess cfg cb')
    else
      (.invoked false, cbOnFailure cfg cb' now)

/-! ### Facts about `retryAux` -/

theorem retryAux_spec {E A : Type} (op : Nat → Except E A) (cfg : RetryConfig) :
    ∀ r a, ∃ n, n ≤ r ∧ (retryAux op cfg a r).2.1 = n + 1 ∧
      (retryAux op cfg a r).2.2 =
        (List.range n).map (fun i => calculateDelay (a + i) cfg) := by
  intro r
  induction r with
  | zero =>
    intro a
    refine ⟨0, le_refl _, ?_⟩
    cases h : op a <;> simp [retryAux, h]
  | succ r ih =>
    intro a
    cases h : op a with
    | ok v => exact ⟨0, Nat.zero_le _, by simp [retryAux, h], by simp [retryAux, h]⟩
    | error e =>
      obtain ⟨n, hn, hcnt, hds⟩ := ih (a + 1)
      refine ⟨n + 1, by omega, ?_, ?_⟩
      · simp only [retryAux, h]
        simpa using hcnt
      · simp only [retryAux, h]
        rw [hds, List.range_succ_eq_map, List.map_cons, List.map_map]
        refine congrArg₂ List.cons (by simp) (List.map_congr_left ?_)
        intro i _
        simp only [Function.comp_apply]
        congr 1
        omega

theorem retryAux_allfail {E A : Type} (op : Nat → Except E A) (cfg : RetryConfig)
    (hfail : ∀ i, ∃ e, op i = .error e) :
    ∀ r a, (retryAux op cfg a r).1 = op (a + r) ∧ (retryAux op cfg a r).2.1 = r + 1 := by
  intro r
  induction r with
  | zero =>
    intro a
    obtain ⟨e, he⟩ := hfail a
    simp [retryAux, he]
  | succ r ih =>
    intro a
    obtain ⟨e, he⟩ := hfail a
    have := ih (a + 1)
    constructor
    · simp only [retryAux, he]
      rw [show a + (r + 1) = (a + 1) + r by ring]
      exact this.1
    · simp only [retryAux, he]
      simp [this.2]

/--
**C5.**  For every operation and retry configuration, `retry` invokes the
operation at most `maxRetries + 1` times; an operation failing every time
is attempted exactly `maxRetries + 1` times and the final outcome is the
last attempt's error, re-raised unchanged; and the delay before the
`n`-th retry (1-indexed, i.e. the `i`-th entry of the delay list with
`i = n - 1` 0-indexed) is
`min(initialDelay * backoffMultiplier ^ (n-1), maxDelay)`.
-/
theorem retry_attempts_and_backoff {E A : Type} (op : Nat → Except E A)
    (cfg : RetryConfig) :
    (retryRun op cfg).2.1 ≤ cfg.maxRetries + 1 ∧
    (retryRun op cfg).2.2 =
      (List.range ((retryRun op cfg).2.1 - 1)).map (fun i => calculateDelay i cfg) ∧
    ((∀ i, ∃ e, op i = .error e) →
      (retryRun op cfg).2.1 = cfg.maxRetries + 1 ∧
      (retryRun op cfg).1 = op cfg.maxRetries) := by
  obtain ⟨n, hn, hcnt, hds⟩ := retryAux_spec op cfg cfg.maxRetries 0
  refine ⟨?_, ?_, ?_⟩
  · simp only [retryRun, hcnt]
    omega
  · simp only [retryRun, hcnt, hds, Nat.add_sub_cancel]
    simp
  · intro hfail
    have := retryAux_allfail op cfg hfail cfg.maxRetries 0
    exact ⟨by simpa [retryRun] using this.2, by simpa [retryRun] using this.1⟩

/--
Witness for C5 at the spec's example: `maxRetries = 3, initialDelay =
100, backoffMultiplier = 2, maxDelay = 30000` and an always-failing
operation: exactly 4 invocations, delays `[100, 200, 400]`, final error
is the last attempt's error.
-/
theorem retry_attempts_and_backoff_witness :
    (retryRun (fun i => (.error i : Except Nat Unit))
      ⟨3, 100, 30000, 2⟩).2.1 = 3 + 1 ∧
    (retryRun (fun i => (.error i : Except Nat Unit))
      ⟨3, 100, 30000, 2⟩).1 = .error 3 ∧
    (retryRun (fun i => (.error i : Except Nat Unit))
      ⟨3, 100, 30000, 2⟩).2.2 = [100, 200, 400] := by
  have h := retry_attempts_and_backoff (fun i => (.error i : Except Nat Unit))
    ⟨3, 100, 30000, 2⟩
  have hall : ∀ i, ∃ e, (fun i => (.error i : Except Nat Unit)) i = .error e :=
    fun i => ⟨i, rfl⟩
  refine ⟨(h.2.2 hall).1, (h.2.2 hall).2, ?_⟩
  rw [h.2.1, (h.2.2 hall).1]
  decide

/-! ### The circuit-breaker state machine (C4) -/

/--
**C4.**  The `CircuitBreaker` follows the specified three-state machine:

* in `open`, `execute` short-circuits (throws) immediately without
  invoking the wrapped operation when `resetTimeout` has not elapsed
  since the last failure, leaving the state unchanged;
* in `open` with `resetTimeout` elapsed, it moves to `half_open` and
  attempts the call: the call is invoked; a failure sends it back to
  `open`; a success counts as the first half-open trial (state stays
  `half_open` when more than one trial is required, `closed` when one
  suffices);
* in `closed`, a failure increments the consecutive-failure counter and
  the breaker opens exactly when that counter reaches
  `failureThreshold`;
* in `half_open`, a success closes the breaker (resetting the failure
  counter) exactly when the trial counter reaches
  `halfOpenMaxAttempts`, and any failure reopens it immediately;
* a success while `closed` resets the failure counter to zero and stays
  `closed`.
-/
theorem circuit_breaker_state_machine (cfg : CircuitBreakerConfig) (cb : CBState)
    (now : Int) (s : Bool) :
    (cb.state = .open → now - cb.lastFailureTime < cfg.resetTimeout →
      cbExecute cfg cb now s = (.shortCircuit, cb)) ∧
    (cb.state = .open → now - cb.lastFailureTime ≥ cfg.resetTimeout →
      (cbExecute cfg cb now s).1 = .invoked s ∧
      (s = false → (cbExecute cfg cb now s).2.state = .open) ∧
      (s = true → 1 < cfg.halfOpenMaxAttempts →
        (cbExecute cfg cb now s).2.state = .halfOpen ∧
        (cbExecute cfg cb now s).2.halfOpenAttempts = 1) ∧
      (s = true → cfg.halfOpenMaxAttempts ≤ 1 →
        (cbExecute cfg cb now s).2.state = .closed ∧
        (cbExecute cfg cb now s).2.failureCount = 0)) ∧
    (cb.state = .closed → s = false →
      (cbExecute cfg cb now s).1 = .invoked false ∧
      (cbExecute cfg cb now s).2.failureCount = cb.failureCount + 1 ∧
      ((cbExecute cfg cb now s).2.state = .open ↔
        cb.failureCount + 1 ≥ cfg.failureThreshold)) ∧
    (cb.state = .closed → s = true →
      (cbExecute cfg cb now s).1 = .invoked true ∧
      (cbExecute cfg cb now s).2.state = .closed ∧
      (cbExecute cfg cb now s).2.failureCount = 0) ∧
    (cb.state = .halfOpen → s = true →
      (cbExecute cfg cb now s).1 = .invoked true ∧
      ((cbExecute cfg cb now s).2.state = .closed ↔
        cb.halfOpenAttempts + 1 ≥ cfg.halfOpenMaxAttempts) ∧
      ((cbExecute cfg cb now s).2.state = .closed →
        (cbExecute cfg cb now s).2.failureCount = 0) ∧
      ((cbExecute cfg cb now s).2.state ≠ .closed →
        (cbExecute cfg cb now s).2.state = .halfOpen)) ∧
    (cb.state = .halfOpen → s = false →
      (cbExecute cfg cb now s).1 = .invoked false ∧
      (cbExecute cfg cb now s).2.state = .open) := by
  refine ⟨?_, ?_, ?_, ?_, ?_, ?_⟩
  · intro hopen hlt
    simp [cbExecute, hopen, not_le.mpr hlt]
  · intro hopen hge
    cases s with
    | false =>
      refine ⟨?_, ?_, ?_, ?_⟩ <;>
        simp [cbExecute, cbOnFailure, hopen, hge]
    | true =>
      by_cases hm : 1 ≥ cfg.halfOpenMaxAttempts
      · refine ⟨?_, ?_, ?_, ?_⟩ <;>
          simp [cbExecute, cbOnSuccess, hopen, hge, hm] <;> omega
      · refine ⟨?_, ?_, ?_, ?_⟩ <;>
          simp [cbExecute, cbOnSuccess, hopen, hge, hm] <;> omega
  · intro hclosed hs
    subst hs
    by_cases hth : cb.failureCount + 1 ≥ cfg.failureThreshold
    · refine ⟨?_, ?_, ?_⟩ <;>
        simp [cbExecute, cbOnFailure, hclosed, hth]
    · have hth' : ¬ (cb.failureCount + 1 ≥ cfg.failureThreshold) := hth
      refine ⟨?_, ?_, ?_⟩ <;>
        simp [cbExecute, cbOnFailure, hclosed, hth'] <;> omega
  · intro hclosed hs
    subst hs
    refine ⟨?_, ?_, ?_⟩ <;> simp [cbExecute, cbOnSuccess, hclosed]
  · intro hhalf hs
    subst hs
    by_cases hm : cb.halfOpenAttempts + 1 ≥ cfg.halfOpenMaxAttempts
    · refine ⟨?_, ?_, ?_, ?_⟩ <;>
        simp [cbExecute, cbOnSuccess, hhalf, hm]
    · refine ⟨?_, ?_, ?_, ?_⟩ <;>
        simp [cbExecute, cbOnSuccess, hhalf, hm] <;> omega
  · intro hhalf hs
    subst hs
    constructor <;> simp [cbExecute, cbOnFailure, hhalf]

/--
Witness for C4 at the spec's example shape (`failureThreshold = 5`): a
closed breaker with 4 prior consecutive failures opens on the 5th
failure; while open and within `resetTimeout` the next call
short-circuits without invoking the operation; once `resetTimeout` has
elapsed the call is attempted.
-/
theorem circuit_breaker_state_machine_witness :
    (cbExecute ⟨5, 1000, 2⟩ ⟨.closed, 4, 0, 0⟩ 50 false).2.state = .open ∧
    cbExecute ⟨5, 1000, 2⟩ ⟨.open, 5, 50, 0⟩ 100 true = (.shortCircuit, ⟨.open, 5, 50, 0⟩) ∧
    (cbExecute ⟨5, 1000, 2⟩ ⟨.open, 5, 50, 0⟩ 1100 true).1 = .invoked true := by
  refine ⟨?_, ?_, ?_⟩
  · exact ((circuit_breaker_state_machine ⟨5, 1000, 2⟩ ⟨.closed, 4, 0, 0⟩ 50
      false).2.2.1 rfl rfl).2.2.mpr (by decide)
  · exact (circuit_breaker_state_machine ⟨5, 1000, 2⟩ ⟨.open, 5, 50, 0⟩ 100
      true).1 rfl (by decide)
  · exact ((circuit_breaker_state_machine ⟨5, 1000, 2⟩ ⟨.open, 5, 50, 0⟩ 1100
      true).2.1 rfl (by decide)).1

/-! ## Rollback (`src/sdk/src/orchestrator.ts`, lines 404–462) -/

/-- Rollback-handler resolution, exactly as performed inline in
`rollback` (orchestrator.ts lines 423–432): the step's own `rollback`
field first; if unset, the `"*"` global handler; and only if that is
also unset, the handler bound to the step's exact id. -/
def getRollbackHandler (w : WorkflowDefinition) (step : WStep) : Option RollbackStep :=
  match step.rollback with
  | some r => some r
  | none =>
    match ehGet w.errorHandlers "*" with
    | some g => some g
    | none => ehGet w.errorHandlers step.id

/-- The compensating message built for one completed step
(orchestrator.ts lines 438–446): the rollback step's task augmented with
`originalStepId` and `originalResult` (a completed result with no
response data contributes `vNull`, standing for JS `undefined`). -/
def mkRollbackMsg (step : WStep) (r : StepRes) (rb : RollbackStep) : Msg :=
  { recipient := rb.agentId
    intent := rb.intent
    task := objSet (objSet rb.task "originalStepId" (Val.vStr step.id))
      "originalResult" (r.data.getD Val.vNull) }

/-- The body of the rollback walk for one completed result. -/
def rollbackStepAcc (w : WorkflowDefinition) (dispatchFails : String → Bool)
    (acc : List Msg × Nat) (r : StepRes) : List Msg × Nat :=
  match w.steps.find? (fun s => s.id = r.stepId) with
  | none => acc
  | some step =>
    match getRollbackHandler w step with
    | none => acc
    | some rb =>
      (acc.1 ++ [mkRollbackMsg step r rb],
       if dispatchFails step.id then acc.2 else acc.2 + 1)

/-- `rollback(workflow, context)` (orchestrator.ts lines 407–462):
filter the recorded results to the completed ones, reverse (most
recently completed first), and walk them one at a time, dispatching the
resolved compensating action when one exists.  `dispatchFails` says
which dispatches reject; a rejected dispatch is caught and logged
(`rolledBackCount` is not incremented) and the walk continues.  Returns
the dispatched messages in order and `rolledBackCount`. -/
def rollbackM (w : WorkflowDefinition) (results : List StepRes)
    (dispatchFails : String → Bool) : List Msg × Nat :=
  ((results.filter (fun r => r.status = .completed)).reverse).foldl
    (rollbackStepAcc w dispatchFails) ([], 0)

theorem rollbackM_fold (w : WorkflowDefinition) (dispatchFails : String → Bool) :
    ∀ (l : List StepRes) (acc : List Msg × Nat),
      (l.foldl (rollbackStepAcc w dispatchFails) acc).1 =
        acc.1 ++ l.filterMap (fun r =>
          (w.steps.find? (fun s => s.id = r.stepId)).bind
            (fun s => (getRollbackHandler w s).map (mkRollbackMsg s r))) := by
  intro l
  induction l with
  | nil => intro acc; simp
  | cons r t ih =>
    intro acc
    simp only [List.foldl_cons, List.filterMap_cons]
    cases hfind : w.steps.find? (fun s => s.id = r.stepId) with
    | none => simp [rollbackStepAcc, hfind, ih]
    | some s =>
      cases hrb : getRollbackHandler w s with
      | none => simp [rollbackStepAcc, hfind, hrb, ih]
      | some rb => simp [rollbackStepAcc, hfind, hrb, ih]

/--
**C3.**  The rollback walk dispatches compensating actions exactly for
the recorded results with status `completed`, in reverse completion
order (the recorded results list is in completion order, so the walk is
over its reverse), sequentially; the dispatched message sequence is
independent of which rollback dispatches fail, so one failing dispatch
never prevents the remaining compensations from being dispatched.  In
the spec's concrete scenario — steps `s1`, `s2` completed (in that
order) with their own rollback actions and a required step `s3` failed —
the walk dispatches `s2`'s compensation strictly before `s1`'s.
-/
theorem rollback_reverse_completion_order (w : WorkflowDefinition)
    (results : List StepRes) (fails : String → Bool) :
    (rollbackM w results fails).1 =
      ((results.filter (fun r => r.status = .completed)).reverse).filterMap
        (fun r => (w.steps.find? (fun s => s.id = r.stepId)).bind
          (fun s => (getRollbackHandler w s).map (mkRollbackMsg s r))) ∧
    (rollbackM w results fails).1 = (rollbackM w results (fun _ => false)).1 ∧
    (rollbackM
        { id := "wf"
          steps := [{ id := "s1", rollback := some ⟨"r1", "undo1", []⟩ },
                    { id := "s2", rollback := some ⟨"r2", "undo2", []⟩ },
                    { id := "s3" }] }
        [⟨"s1", .completed, some (.vStr "d1")⟩,
         ⟨"s2", .completed, some (.vStr "d2")⟩,
         ⟨"s3", .failed, none⟩]
        (fun id => id == "s2")).1 =
      [⟨"r2", "undo2", [("originalStepId", .vStr "s2"), ("originalResult", .vStr "d2")]⟩,
       ⟨"r1", "undo1", [("originalStepId", .vStr "s1"), ("originalResult", .vStr "d1")]⟩] := by
  refine ⟨?_, ?_, ?_⟩
  · simpa [rollbackM] using
      rollbackM_fold w fails (results.filter (fun r => r.status = .completed)).reverse ([], 0)
  · rw [show (rollbackM w results fails).1 = _ from by
        simpa [rollbackM] using rollbackM_fold w fails
          (results.filter (fun r => r.status = .completed)).reverse ([], 0),
      show (rollbackM w results (fun _ => false)).1 = _ from by
        simpa [rollbackM] using rollbackM_fold w (fun _ => false)
          (results.filter (fun r => r.status = .completed)).reverse ([], 0)]
  · decide

/-! ## Rollback-handler precedence (C2) -/

/--
**Counterexample to C2 as stated.**  The claim says the handler bound to
the step's exact id takes precedence over the `"*"` global handler when
the step has no local `rollback` field.  In the code
(orchestrator.ts lines 424–432) the `"*"` handler is consulted *before*
the step-id handler: for a step `s1` with no local rollback and both an
`"s1"`-keyed handler and a `"*"` handler bound, the global handler is
resolved, not the exact-id one.
-/
theorem rollback_precedence_counterexample :
    (({ id := "s1" } : WStep).rollback = none) ∧
    ehGet [("s1", (⟨"eAgent", "eIntent", []⟩ : RollbackStep)),
           ("*", ⟨"gAgent", "gIntent", []⟩)] "s1" = some ⟨"eAgent", "eIntent", []⟩ ∧
    getRollbackHandler
      { id := "wf", steps := [{ id := "s1" }],
        errorHandlers := [("s1", ⟨"eAgent", "eIntent", []⟩),
                          ("*", ⟨"gAgent", "gIntent", []⟩)] }
      { id := "s1" } = some ⟨"gAgent", "gIntent", []⟩ ∧
    (⟨"gAgent", "gIntent", []⟩ : RollbackStep) ≠ ⟨"eAgent", "eIntent", []⟩ := by
  refine ⟨rfl, rfl, rfl, by decide⟩

/--
**C2 (amended).**  At rollback time the compensating action for a
completed step is resolved with this precedence: the step's own
`rollback` field first; if none is set, the `"*"` global handler; and
only if that is also absent, the handler bound to the step's exact id.
-/
theorem rollback_handler_precedence (w : WorkflowDefinition) (s : WStep) :
    (∀ r, s.rollback = some r → getRollbackHandler w s = some r) ∧
    (s.rollback = none → ∀ g, ehGet w.errorHandlers "*" = some g →
      getRollbackHandler w s = some g) ∧
    (s.rollback = none → ehGet w.errorHandlers "*" = none →
      getRollbackHandler w s = ehGet w.errorHandlers s.id) := by
  refine ⟨?_, ?_, ?_⟩
  · intro r hr
    simp [getRollbackHandler, hr]
  · intro hnone g hg
    simp [getRollbackHandler, hnone, hg]
  · intro hnone hstar
    simp [getRollbackHandler, hnone, hstar]

/--
Witness for C2 (amended): a step with no local rollback and no global
handler resolves to the handler bound to its exact id.
-/
theorem rollback_handler_precedence_witness :
    getRollbackHandler
      { id := "wf", steps := [{ id := "s1" }],
        errorHandlers := [("s1", ⟨"eAgent", "eIntent", []⟩)] }
      { id := "s1" } = some ⟨"eAgent", "eIntent", []⟩ := by
  have h := (rollback_handler_precedence
    { id := "wf", steps := [{ id := "s1" }],
      errorHandlers := [("s1", ⟨"eAgent", "eIntent", []⟩)] }
    { id := "s1" }).2.2 rfl rfl
  rw [h]
  rfl

/-! ## Execution-order resolution
(`src/sdk/src/orchestrator.ts`, lines 309–347)

`resolveExecutionOrder` performs a depth-first post-order emission with a
`visiting` set for cycle detection.  The JS recursion is modelled with a
fuel parameter; `resolverFuel` is large enough that fuel can never run
out (the recursion depth is bounded by the number of distinct ids ever
pushed onto `visiting`). -/

/-- The ids of a step list. -/
def stepIds (steps : List WStep) : List String := steps.map (fun s => s.id)

/-- `new Map(steps.map(s => [s.id, s])).get(stepId)`: a JS `Map` built
from pairs keeps the *last* entry per key. -/
def stepLookup (steps : List WStep) (stepId : String) : Option WStep :=
  steps.reverse.find? (fun s => s.id = stepId)

/-- State of the topological-sort traversal: the emitted `sorted` list
and the `visited` / `visiting` sets. -/
structure OrderSt where
  sorted : List WStep := []
  visited : List String := []
  visiting : List String := []

/-- Sequentially run a visitor over a list of ids, propagating the first
error (the JS `for` loops in `visit` and `resolveExecutionOrder`). -/
def visitMany (f : String → OrderSt → Except String OrderSt) :
    List String → OrderSt → Except String OrderSt
  | [], st => .ok st
  | d :: ds, st =>
    match f d st with
    | .error e => .error e
    | .ok st2 => visitMany f ds st2

/-- The recursive `visit` closure (orchestrator.ts lines 318–339).  Note
the faithful modelling of the early return when `stepId` is not a known
step (line 327): the id is *not* removed from `visiting` and *not* added
to `visited`. -/
def visit (steps : List WStep) : Nat → String → OrderSt → Except String OrderSt
  | 0, _, _ => .error "fuel exhausted"
  | fuel + 1, stepId, st =>
    if stepId ∈ st.visited then .ok st
    else if stepId ∈ st.visiting then
      .error ("Circular dependency detected: " ++ stepId)
    else
      let st1 : OrderSt := { st with visiting := stepId :: st.visiting }
      match stepLookup steps stepId with
      | none => .ok st1
      | some step =>
        match visitMany (fun d s => visit steps fuel d s) step.dependsOn st1 with
        | .error e => .error e
        | .ok st2 =>
          .ok { sorted := st2.sorted ++ [step]
                visited := stepId :: st2.visited
                visiting := st2.visiting.erase stepId }

/-- Fuel bound: one more than the number of ids that can ever enter the
`visiting` set (every step id plus every dependency id). -/
def resolverFuel (steps : List WStep) : Nat :=
  steps.length + (steps.map (fun s => s.dependsOn.length)).sum + 1

/-- `resolveExecutionOrder(steps)` (orchestrator.ts lines 312–347). -/
def resolveExecutionOrder (steps : List WStep) : Except String (List WStep) :=
  match visitMany (fun d s => visit steps (resolverFuel steps) d s)
      (stepIds steps) {} with
  | .error e => .error e
  | .ok st => .ok st.sorted

/-! ### Graph-validity notions -/

/-- Every `dependsOn` id resolves to a step of the same graph. -/
def AllDepsResolve (steps : List WStep) : Prop :=
  ∀ s ∈ steps, ∀ d ∈ s.dependsOn, d ∈ stepIds steps

/-- `rank` certifies the dependency relation: every dependency ranks
strictly below its dependent. -/
def RankOK (steps : List WStep) (rank : String → Nat) : Prop :=
  ∀ s ∈ steps, ∀ d ∈ s.dependsOn, rank d < rank s.id

/-- The dependency relation of a finite graph is acyclic precisely when
it admits a strict ranking into `Nat`; this ranking form is taken as the
definition of acyclicity. -/
def Acyclic (steps : List WStep) : Prop :=
  ∃ rank : String → Nat, RankOK steps rank

/-- `l` is topologically sorted: every element's dependencies occur at
strictly earlier positions. -/
def TopoSorted (l : List WStep) : Prop :=
  ∀ i, ∀ hi : i < l.length, ∀ d ∈ (l.get ⟨i, hi⟩).dependsOn,
    ∃ j, ∃ hj : j < l.length, j < i ∧ (l.get ⟨j, hj⟩).id = d

/--
**C10.**  `resolveExecutionOrder` reports a circular dependency on a
cycle-free graph that bypasses the builder: with steps `a` and `b` both
listing the nonexistent dependency `"ghost"`, the visit of `"ghost"`
from `a` returns early leaving `"ghost"` in the `visiting` set, so the
visit of `"ghost"` from `b` throws `Circular dependency detected`
although the graph (which is even dependency-free between the two real
steps) is acyclic.
-/
theorem resolver_spurious_cycle_on_missing_dep :
    Acyclic [{ id := "a", dependsOn := ["ghost"] },
             { id := "b", dependsOn := ["ghost"] }] ∧
    resolveExecutionOrder
      [{ id := "a", dependsOn := ["ghost"] },
       { id := "b", dependsOn := ["ghost"] }] =
      .error ("Circular dependency detected: " ++ "ghost") := by
  constructor
  · exact ⟨fun s => if s = "ghost" then 0 else 1, by unfold RankOK; decide⟩
  · rfl

/-! ### Facts about `stepLookup` -/

theorem stepLookup_eq_some {steps : List WStep} {i : String} {s : WStep}
    (h : stepLookup steps i = some s) : s ∈ steps ∧ s.id = i := by
  unfold stepLookup at h
  have hmem := List.mem_of_find?_eq_some h
  have hp := List.find?_some h
  rw [List.mem_reverse] at hmem
  exact ⟨hmem, by simpa using hp⟩

theorem stepLookup_found {steps : List WStep} {i : String}
    (h : i ∈ stepIds steps) : ∃ s, stepLookup steps i = some s := by
  unfold stepIds at h
  obtain ⟨s, hs, hid⟩ := List.mem_map.mp h
  unfold stepLookup
  cases hfind : steps.reverse.find? (fun t => t.id = i) with
  | some t => exact ⟨t, rfl⟩
  | none =>
    rw [List.find?_eq_none] at hfind
    have := hfind s (List.mem_reverse.mpr hs)
    simp [hid] at this

theorem id_inj_of_nodup {steps : List WStep} (hnd : (stepIds steps).Nodup)
    {s t : WStep} (hs : s ∈ steps) (ht : t ∈ steps) (hid : s.id = t.id) : s = t := by
  induction steps with
  | nil => cases hs
  | cons x rest ih =>
    have hnd' : x.id ∉ (stepIds rest) ∧ (stepIds rest).Nodup := by
      simpa [stepIds] using hnd
    rcases List.mem_cons.mp hs with rfl | hs' <;>
      rcases List.mem_cons.mp ht with h | ht'
    · rw [h]
    · exact absurd (hid ▸ List.mem_map_of_mem WStep.id ht') hnd'.1
    · subst h
      exact absurd (hid ▸ List.mem_map_of_mem WStep.id hs') hnd'.1
    · exact ih hnd'.2 hs' ht'

/-! ### Facts about `TopoSorted` -/

theorem get_append_left' {α} (l l' : List α) (i : Nat) (h : i < l.length)
    (h2 : i < (l ++ l').length) : (l ++ l').get ⟨i, h2⟩ = l.get ⟨i, h⟩ := by
  induction l generalizing i with
  | nil => cases h
  | cons x t ih =>
    cases i with
    | zero => rfl
    | succ j => exact ih j (by simpa using h) (by simpa using h2)

theorem get_append_last' {α} (l : List α) (a : α) (h : l.length < (l ++ [a]).length) :
    (l ++ [a]).get ⟨l.length, h⟩ = a := by
  induction l with
  | nil => rfl
  | cons x t ih => exact ih (by simp)

theorem topoSorted_append {l : List WStep} {s : WStep} (h : TopoSorted l)
    (hd : ∀ d ∈ s.dependsOn, ∃ j, ∃ hj : j < l.length, (l.get ⟨j, hj⟩).id = d) :
    TopoSorted (l ++ [s]) := by
  intro i hi d hdi
  rcases Nat.lt_or_ge i l.length with hil | hil
  · rw [get_append_left' l [s] i hil hi] at hdi
    obtain ⟨j, hj, hji, hjd⟩ := h i hil d hdi
    exact ⟨j, by simp; omega, hji,
      by rw [get_append_left' l [s] j hj (by simp; omega)]; exact hjd⟩
  · have hieq : i = l.length := by
      have : i < l.length + 1 := by simpa using hi
      omega
    subst hieq
    rw [get_append_last' l s hi] at hdi
    obtain ⟨j, hj, hjd⟩ := hd d hdi
    exact ⟨j, by simp; omega, hj,
      by rw [get_append_left' l [s] j hj (by simp; omega)]; exact hjd⟩

/-! ### The fuel measure -/

/-- Count of step ids not yet on `visited` or `visiting`: strictly
decreases when the traversal descends into a fresh step id. -/
def resolverM (steps : List WStep) (st : OrderSt) : Nat :=
  ((stepIds steps).toFinset \ (st.visited.toFinset ∪ st.visiting.toFinset)).card

theorem resolverM_mono {steps : List WStep} {st st' : OrderSt}
    (hvd : ∀ i ∈ st.visited, i ∈ st'.visited)
    (hvg : ∀ i ∈ st.visiting, i ∈ st'.visiting) :
    resolverM steps st' ≤ resolverM steps st := by
  apply Finset.card_le_card
  apply Finset.sdiff_subset_sdiff (le_refl _)
  intro x hx
  rw [Finset.mem_union, List.mem_toFinset, List.mem_toFinset] at hx
  rw [Finset.mem_union, List.mem_toFinset, List.mem_toFinset]
  rcases hx with h | h
  · exact Or.inl (hvd x h)
  · exact Or.inr (hvg x h)

theorem resolverM_push {steps : List WStep} {st : OrderSt} {x : String}
    (hS : x ∈ stepIds steps) (h1 : x ∉ st.visited) (h2 : x ∉ st.visiting) :
    resolverM steps { st with visiting := x :: st.visiting } + 1 = resolverM steps st := by
  unfold resolverM
  have hx : x ∈ (stepIds steps).toFinset \ (st.visited.toFinset ∪ st.visiting.toFinset) := by
    rw [Finset.mem_sdiff, Finset.mem_union, List.mem_toFinset, List.mem_toFinset,
      List.mem_toFinset]
    exact ⟨hS, by tauto⟩
  have hset : (stepIds steps).toFinset \
      (st.visited.toFinset ∪ (x :: st.visiting).toFinset) =
      ((stepIds steps).toFinset \
        (st.visited.toFinset ∪ st.visiting.toFinset)).erase x := by
    ext y
    rw [Finset.mem_sdiff, Finset.mem_union, Finset.mem_erase, Finset.mem_sdiff,
      Finset.mem_union, List.toFinset_cons, Finset.mem_insert]
    repeat rw [List.mem_toFinset]
    tauto
  have hpos : 0 < ((stepIds steps).toFinset \
      (st.visited.toFinset ∪ st.visiting.toFinset)).card :=
    Finset.card_pos.mpr ⟨x, hx⟩
  rw [hset, Finset.card_erase_of_mem hx]
  omega

/-! ### Traversal invariant and the soundness proof -/

/-- Invariant preserved by the traversal on valid graphs: the emitted
list is topologically sorted, `visited` and the ids of `sorted`
coincide, every emitted step is a member of the graph, and `visiting`
holds only known step ids. -/
structure ResInv (steps : List WStep) (st : OrderSt) : Prop where
  topo : TopoSorted st.sorted
  visited_sorted : ∀ i ∈ st.visited,
    ∃ j, ∃ hj : j < st.sorted.length, (st.sorted.get ⟨j, hj⟩).id = i
  sorted_visited : ∀ t ∈ st.sorted, t.id ∈ st.visited
  sorted_mem : ∀ t ∈ st.sorted, t ∈ steps
  sorted_nodup : (st.sorted.map WStep.id).Nodup
  visiting_ids : ∀ i ∈ st.visiting, i ∈ stepIds steps

/-- Contract of `visit` on a valid graph: given enough fuel and a
`visiting` stack every element of which ranks strictly above the target
id, the visit succeeds, preserves the invariant and the `visiting`
stack, only grows `visited` (now containing the target), and only
appends to `sorted`. -/
def VisitOK (steps : List WStep) (rank : String → Nat) (fuel : Nat) : Prop :=
  ∀ stepId st, stepId ∈ stepIds steps → ResInv steps st →
    (∀ v ∈ st.visiting, rank stepId < rank v) →
    resolverM steps st + 1 ≤ fuel →
    ∃ st', visit steps fuel stepId st = .ok st' ∧ ResInv steps st' ∧
      st'.visiting = st.visiting ∧
      (∀ i ∈ st.visited, i ∈ st'.visited) ∧ stepId ∈ st'.visited ∧
      (∀ i ∈ st'.visited, i ∈ st.visited ∨ rank i ≤ rank stepId) ∧
      ∃ tail, st'.sorted = st.sorted ++ tail

theorem visitMany_sound_of (steps : List WStep) (rank : String → Nat) (fuel : Nat)
    (hv : VisitOK steps rank fuel) :
    ∀ ds st, (∀ d ∈ ds, d ∈ stepIds steps) → ResInv steps st →
      (∀ d ∈ ds, ∀ v ∈ st.visiting, rank d < rank v) →
      resolverM steps st + 1 ≤ fuel →
      ∃ st', visitMany (fun d s => visit steps fuel d s) ds st = .ok st' ∧
        ResInv steps st' ∧ st'.visiting = st.visiting ∧
        (∀ i ∈ st.visited, i ∈ st'.visited) ∧ (∀ d ∈ ds, d ∈ st'.visited) ∧
        (∀ i ∈ st'.visited, i ∈ st.visited ∨ ∃ d ∈ ds, rank i ≤ rank d) ∧
        ∃ tail, st'.sorted = st.sorted ++ tail := by
  intro ds
  induction ds with
  | nil =>
    intro st _ hinv _ _
    exact ⟨st, rfl, hinv, rfl, fun i h => h, by simp, fun i h => Or.inl h,
      [], by simp⟩
  | cons d ds ih =>
    intro st hds hinv hrk hfuel
    obtain ⟨st1, hv1, hinv1, hvis1, hmono1, hdvis1, hnew1, tail1, hs1⟩ :=
      hv d st (hds d (by simp)) hinv (hrk d (by simp)) hfuel
    have hfuel1 : resolverM steps st1 + 1 ≤ fuel := by
      have := @resolverM_mono steps _ _ hmono1
        (by rw [hvis1]; exact fun i h => h)
      omega
    obtain ⟨st2, hv2, hinv2, hvis2, hmono2, hdsvis2, hnew2, tail2, hs2⟩ :=
      ih st1 (fun x hx => hds x (by simp [hx])) hinv1
        (by
          intro x hx v hv'
          rw [hvis1] at hv'
          exact hrk x (by simp [hx]) v hv')
        hfuel1
    refine ⟨st2, ?_, hinv2, by rw [hvis2, hvis1],
      fun i h => hmono2 i (hmono1 i h), ?_, ?_, ?_⟩
    · simp only [visitMany, hv1]
      exact hv2
    · intro x hx
      rcases List.mem_cons.mp hx with rfl | hx'
      · exact hmono2 x hdvis1
      · exact hdsvis2 x hx'
    · intro i hi
      rcases hnew2 i hi with hi1 | ⟨x, hx, hrx⟩
      · rcases hnew1 i hi1 with hi0 | hr
        · exact Or.inl hi0
        · exact Or.inr ⟨d, by simp, hr⟩
      · exact Or.inr ⟨x, by simp [hx], hrx⟩
    · exact ⟨tail1 ++ tail2, by rw [hs2, hs1, List.append_assoc]⟩

theorem visit_sound (steps : List WStep) (rank : String → Nat)
    (hRes : AllDepsResolve steps) (hrank : RankOK steps rank) :
    ∀ fuel, VisitOK steps rank fuel := by
  intro fuel
  induction fuel with
  | zero =>
    intro stepId st _ _ _ hf
    omega
  | succ fuel ih =>
    intro stepId st hid hinv hrk hfuel
    by_cases hvd : stepId ∈ st.visited
    · exact ⟨st, by simp [visit, hvd], hinv, rfl, fun i h => h, hvd,
        fun i h => Or.inl h, [], by simp⟩
    · have hvg : stepId ∉ st.visiting := fun hmem =>
        absurd (hrk stepId hmem) (lt_irrefl _)
      obtain ⟨step, hlook⟩ := stepLookup_found hid
      obtain ⟨hstep_mem, hstep_id⟩ := stepLookup_eq_some hlook
      have hinv1 : ResInv steps { st with visiting := stepId :: st.visiting } :=
        { topo := hinv.topo
          visited_sorted := hinv.visited_sorted
          sorted_visited := hinv.sorted_visited
          sorted_mem := hinv.sorted_mem
          sorted_nodup := hinv.sorted_nodup
          visiting_ids := by
            intro i hi
            rcases List.mem_cons.mp hi with rfl | hi'
            · exact hid
            · exact hinv.visiting_ids i hi' }
      have hfuel1 :
          resolverM steps { st with visiting := stepId :: st.visiting } + 1 ≤ fuel := by
        have := @resolverM_push steps st _ hid hvd hvg
        omega
      have hdeps_ids : ∀ d ∈ step.dependsOn, d ∈ stepIds steps :=
        fun d hd => hRes step hstep_mem d hd
      have hrk_step : ∀ v ∈ st.visiting, rank step.id < rank v := by
        rw [hstep_id]; exact hrk
      have hdeps_rank : ∀ d ∈ step.dependsOn,
          ∀ v ∈ ({ st with visiting := stepId :: st.visiting } : OrderSt).visiting,
            rank d < rank v := by
        intro d hd v hv
        have h1 : rank d < rank step.id := hrank step hstep_mem d hd
        rcases List.mem_cons.mp hv with rfl | hv'
        · rw [hstep_id] at h1
          exact h1
        · exact lt_trans h1 (hrk_step v hv')
      obtain ⟨st2, hmany, hinv2, hvis2, hmono2, hdsvis2, hnew2, tail2, hs2⟩ :=
        visitMany_sound_of steps rank fuel ih step.dependsOn
          { st with visiting := stepId :: st.visiting }
          hdeps_ids hinv1 hdeps_rank hfuel1
      have herase : st2.visiting.erase stepId = st.visiting := by
        rw [hvis2]
        exact List.erase_cons_head stepId st.visiting
      have hstep_rank : ∀ d ∈ step.dependsOn, rank d < rank stepId := by
        intro d hd
        have := hrank step hstep_mem d hd
        rwa [hstep_id] at this
      have hnot2 : stepId ∉ st2.visited := by
        intro hmem
        rcases hnew2 stepId hmem with h0 | ⟨d, hd, hrd⟩
        · exact hvd h0
        · exact absurd (lt_of_le_of_lt hrd (hstep_rank d hd)) (lt_irrefl _)
      refine ⟨{ sorted := st2.sorted ++ [step]
                visited := stepId :: st2.visited
                visiting := st2.visiting.erase stepId }, ?_, ?_, herase,
        fun i h => List.mem_cons_of_mem _ (hmono2 i h), List.mem_cons_self _ _,
        ?_, tail2 ++ [step], by rw [hs2]; simp⟩
      · simp only [visit]
        rw [if_neg hvd, if_neg hvg]
        simp only [hlook, hmany]
      · refine
          { topo := ?_
            visited_sorted := ?_
            sorted_visited := ?_
            sorted_mem := ?_
            sorted_nodup := ?_
            visiting_ids := ?_ }
        · exact topoSorted_append hinv2.topo
            (fun d hd => hinv2.visited_sorted d (hdsvis2 d hd))
        · intro i hi
          rcases List.mem_cons.mp hi with rfl | hi'
          · refine ⟨st2.sorted.length, by simp, ?_⟩
            rw [get_append_last' st2.sorted step (by simp)]
            exact hstep_id
          · obtain ⟨j, hj, hjd⟩ := hinv2.visited_sorted i hi'
            exact ⟨j, by simp; omega,
              by rw [get_append_left' st2.sorted [step] j hj (by simp; omega)]; exact hjd⟩
        · intro t ht
          rcases List.mem_append.mp ht with ht' | ht'
          · exact List.mem_cons_of_mem _ (hinv2.sorted_visited t ht')
          · rw [List.mem_singleton.mp ht', hstep_id]
            exact List.mem_cons_self _ _
        · intro t ht
          rcases List.mem_append.mp ht with ht' | ht'
          · exact hinv2.sorted_mem t ht'
          · rw [List.mem_singleton.mp ht']
            exact hstep_mem
        · rw [List.map_append, List.nodup_append]
          refine ⟨hinv2.sorted_nodup, List.nodup_singleton _, ?_⟩
          intro a ha ha2
          have haid : a = step.id := by simpa using ha2
          subst haid
          obtain ⟨t, ht, htid⟩ := List.mem_map.mp ha
          have : step.id ∈ st2.visited := htid ▸ hinv2.sorted_visited t ht
          rw [hstep_id] at this
          exact hnot2 this
        · intro i hi
          exact hinv2.visiting_ids i (List.mem_of_mem_erase hi)
      · intro i hi
        rcases List.mem_cons.mp hi with rfl | hi'
        · exact Or.inr (le_refl _)
        · rcases hnew2 i hi' with hi0 | ⟨d, hd, hrd⟩
          · exact Or.inl hi0
          · exact Or.inr (le_of_lt (lt_of_le_of_lt hrd (hstep_rank d hd)))

/-- Full characterisation of `resolveExecutionOrder` on valid graphs,
shared by several claims: success, completeness, topological order,
duplicate-free output drawn from the graph's steps. -/
theorem resolveExecutionOrder_props (steps : List WStep)
    (hnd : (stepIds steps).Nodup) (hRes : AllDepsResolve steps)
    (hacyc : Acyclic steps) :
    ∃ sorted, resolveExecutionOrder steps = .ok sorted ∧
      (∀ s ∈ steps, s ∈ sorted) ∧ TopoSorted sorted ∧
      (sorted.map WStep.id).Nodup ∧ (∀ t ∈ sorted, t ∈ steps) := by
  obtain ⟨rank, hrank⟩ := hacyc
  have hv := visit_sound steps rank hRes hrank (resolverFuel steps)
  have hinit : ResInv steps {} :=
    { topo := by intro i hi; cases hi
      visited_sorted := by intro i hi; cases hi
      sorted_visited := by intro t ht; cases ht
      sorted_mem := by intro t ht; cases ht
      sorted_nodup := List.nodup_nil
      visiting_ids := by intro i hi; cases hi }
  have hfuel : resolverM steps ({} : OrderSt) + 1 ≤ resolverFuel steps := by
    have h1 : resolverM steps ({} : OrderSt) ≤ (stepIds steps).toFinset.card := by
      unfold resolverM
      exact Finset.card_le_card Finset.sdiff_subset
    have h2 : (stepIds steps).toFinset.card ≤ (stepIds steps).length :=
      List.toFinset_card_le _
    have h3 : (stepIds steps).length = steps.length := by
      unfold stepIds
      exact List.length_map _ _
    unfold resolverFuel
    omega
  obtain ⟨stf, hmany, hinvf, _, _, hallvis, _, _⟩ :=
    visitMany_sound_of steps rank (resolverFuel steps) hv (stepIds steps) {}
      (fun d hd => hd) hinit (by intro d _ v hv'; cases hv') hfuel
  refine ⟨stf.sorted, ?_, ?_, hinvf.topo, hinvf.sorted_nodup, hinvf.sorted_mem⟩
  · unfold resolveExecutionOrder
    rw [hmany]
  · intro s hs
    have hsid : s.id ∈ stf.visited :=
      hallvis s.id (List.mem_map_of_mem WStep.id hs)
    obtain ⟨j, hj, hjid⟩ := hinvf.visited_sorted s.id hsid
    have ht_mem : stf.sorted.get ⟨j, hj⟩ ∈ stf.sorted := List.get_mem stf.sorted j hj
    have heq : stf.sorted.get ⟨j, hj⟩ = s :=
      id_inj_of_nodup hnd (hinvf.sorted_mem _ ht_mem) hs hjid
    rw [← heq]
    exact ht_mem

/--
**C1.**  For every valid workflow graph — unique step ids, every
`dependsOn` id resolving to a known step, and an acyclic dependency
relation — `resolveExecutionOrder` succeeds, its output contains each
step, and it places every step strictly after all of its `dependsOn`
steps (topological-order invariant).
-/
theorem resolve_execution_order_topological (steps : List WStep)
    (hnd : (stepIds steps).Nodup) (hRes : AllDepsResolve steps)
    (hacyc : Acyclic steps) :
    ∃ sorted, resolveExecutionOrder steps = .ok sorted ∧
      (∀ s ∈ steps, s ∈ sorted) ∧ TopoSorted sorted := by
  obtain ⟨sorted, h1, h2, h3, _, _⟩ :=
    resolveExecutionOrder_props steps hnd hRes hacyc
  exact ⟨sorted, h1, h2, h3⟩

/--
Witness for C1 at the spec's `fetch → transform → notify` chain.
-/
theorem resolve_execution_order_topological_witness :
    ∃ sorted, resolveExecutionOrder
        [{ id := "fetch" }, { id := "transform", dependsOn := ["fetch"] },
         { id := "notify", dependsOn := ["transform"] }] = .ok sorted ∧
      (∀ s ∈ [({ id := "fetch" } : WStep),
              { id := "transform", dependsOn := ["fetch"] },
              { id := "notify", dependsOn := ["transform"] }], s ∈ sorted) ∧
      TopoSorted sorted :=
  resolve_execution_order_topological
    [{ id := "fetch" }, { id := "transform", dependsOn := ["fetch"] },
     { id := "notify", dependsOn := ["transform"] }]
    (by decide)
    (by unfold AllDepsResolve; decide)
    ⟨fun i => if i = "fetch" then 0 else if i = "transform" then 1 else 2,
     by unfold RankOK; decide⟩

/-! ## Workflow builder validation
(`src/sdk/src/workflow.ts`, lines 222–300)

`build()` runs `validate()`: an emptiness check, a dependency-existence
scan, and `detectCycles()` (DFS with a recursion-stack set), then
returns the `WorkflowDefinition`.  Errors are modelled by `BuildErr`;
the `fuelExhausted` constructor is an embedding artifact proved
unreachable. -/

/-- Build-time errors thrown by `validate`:
`emptyWorkflow` = `'Workflow must have at least one step'`,
`unknownDependency s d` = `"Step 's' depends on non-existent step 'd'"`,
`circularDependency s` =
`"Circular dependency detected involving step 's'"`. -/
inductive BuildErr where
  | emptyWorkflow
  | unknownDependency (stepId depId : String)
  | circularDependency (stepId : String)
  | fuelExhausted
  deriving DecidableEq

/-- State of the `detectCycles` DFS. -/
structure CycSt where
  visited : List String := []
  recStack : List String := []

/-- The dependency-existence scan (workflow.ts lines 253–261): the first
step (in insertion order) with a `dependsOn` id that is not a key of the
step map yields the error. -/
def checkDeps (steps : List WStep) : List WStep → Option BuildErr
  | [] => none
  | s :: rest =>
    match s.dependsOn.find? (fun d => !(decide (d ∈ stepIds steps))) with
    | some d => some (.unknownDependency s.id d)
    | none => checkDeps steps rest

/-- The `for (const depId of step.dependsOn)` loop body of `dfs`
(workflow.ts lines 282–289): unvisited dependencies are recursed into;
visited dependencies still on the recursion stack report a cycle naming
the *parent* step. -/
def dfsFold (f : String → CycSt → Except BuildErr CycSt) (parent : String) :
    List String → CycSt → Except BuildErr CycSt
  | [], st => .ok st
  | d :: ds, st =>
    if d ∈ st.visited then
      if d ∈ st.recStack then .error (.circularDependency parent)
      else dfsFold f parent ds st
    else
      match f d st with
      | .error e => .error e
      | .ok st2 => dfsFold f parent ds st2

/-- The recursive `dfs` closure of `detectCycles` (workflow.ts lines
276–293): mark visited and push the recursion stack, walk the
dependencies of the step (none when the id is not a known step), then
pop the recursion stack. -/
def dfs (steps : List WStep) : Nat → String → CycSt → Except BuildErr CycSt
  | 0, _, _ => .error .fuelExhausted
  | fuel + 1, stepId, st =>
    let st1 : CycSt := { visited := stepId :: st.visited
                         recStack := stepId :: st.recStack }
    let deps : List String :=
      match stepLookup steps stepId with
      | none => []
      | some step => step.dependsOn
    match dfsFold (fun d s => dfs steps fuel d s) stepId deps st1 with
    | .error e => .error e
    | .ok st2 => .ok { visited := st2.visited, recStack := st2.recStack.erase stepId }

/-- The outer loop of `detectCycles` (workflow.ts lines 295–299). -/
def detectLoop (steps : List WStep) (fuel : Nat) :
    List String → CycSt → Except BuildErr CycSt
  | [], st => .ok st
  | i :: ids, st =>
    if i ∈ st.visited then detectLoop steps fuel ids st
    else
      match dfs steps fuel i st with
      | .error e => .error e
      | .ok st2 => detectLoop steps fuel ids st2

/-- Fuel for the builder DFS: one more than the number of distinct ids
that can ever be visited. -/
def builderFuel (steps : List WStep) : Nat :=
  steps.length + (steps.map (fun s => s.dependsOn.length)).sum + 1

/-- `detectCycles()` (workflow.ts lines 272–300). -/
def detectCycles (steps : List WStep) : Except BuildErr CycSt :=
  detectLoop steps (builderFuel steps) (stepIds steps) {}

/-- `validate()` (workflow.ts lines 247–267). -/
def validate (steps : List WStep) : Option BuildErr :=
  if steps.length = 0 then some .emptyWorkflow
  else
    match checkDeps steps steps with
    | some e => some e
    | none =>
      match detectCycles steps with
      | .error e => some e
      | .ok _ => none

/-- `build()` (workflow.ts lines 222–242): validate, then assemble the
definition from the builder's fields.  (The source passes `undefined`
instead of an empty `parallelGroups` array; the empty list stands for
both.) -/
def build (wfId : String) (steps : List WStep) (groups : List PGroup)
    (handlers : List (String × RollbackStep)) (timeoutO : Option Nat) :
    Except BuildErr WorkflowDefinition :=
  match validate steps with
  | some e => .error e
  | none =>
    .ok { id := wfId, steps := steps, parallelGroups := groups,
          errorHandlers := handlers, timeout := timeoutO }

/-! ### The dependency relation, and ids reachable by the DFS -/

/-- `d` is a dependency of the step with id `a`. -/
def depEdge (steps : List WStep) (d a : String) : Prop :=
  ∃ s ∈ steps, s.id = a ∧ d ∈ s.dependsOn

/-- All ids the builder DFS can ever visit. -/
def allIds (steps : List WStep) : List String :=
  stepIds steps ++ (steps.map (fun s => s.dependsOn)).flatten

theorem stepIds_sub_allIds {steps : List WStep} {i : String}
    (h : i ∈ stepIds steps) : i ∈ allIds steps :=
  List.mem_append_left _ h

theorem deps_sub_allIds {steps : List WStep} {s : WStep} {d : String}
    (hs : s ∈ steps) (hd : d ∈ s.dependsOn) : d ∈ allIds steps := by
  refine List.mem_append_right _ ?_
  rw [List.mem_flatten]
  exact ⟨s.dependsOn, List.mem_map_of_mem _ hs, hd⟩

theorem stepLookup_eq_none {steps : List WStep} {i : String}
    (h : stepLookup steps i = none) : ∀ s ∈ steps, s.id ≠ i := by
  unfold stepLookup at h
  rw [List.find?_eq_none] at h
  intro s hs
  have := h s (List.mem_reverse.mpr hs)
  simpa using this

/-! ### The builder DFS measure -/

/-- Count of reachable ids not yet visited. -/
def cycM (steps : List WStep) (st : CycSt) : Nat :=
  ((allIds steps).toFinset \ st.visited.toFinset).card

theorem cycM_mono {steps : List WStep} {st st' : CycSt}
    (hvd : ∀ i ∈ st.visited, i ∈ st'.visited) :
    cycM steps st' ≤ cycM steps st := by
  apply Finset.card_le_card
  apply Finset.sdiff_subset_sdiff (le_refl _)
  intro x hx
  rw [List.mem_toFinset] at hx
  rw [List.mem_toFinset]
  exact hvd x hx

theorem cycM_push {steps : List WStep} {st : CycSt} {x : String} {rs : List String}
    (hS : x ∈ allIds steps) (h1 : x ∉ st.visited) :
    cycM steps { visited := x :: st.visited, recStack := rs } + 1 = cycM steps st := by
  unfold cycM
  have hx : x ∈ (allIds steps).toFinset \ st.visited.toFinset := by
    rw [Finset.mem_sdiff, List.mem_toFinset, List.mem_toFinset]
    exact ⟨hS, h1⟩
  have hset : (allIds steps).toFinset \ (x :: st.visited).toFinset =
      ((allIds steps).toFinset \ st.visited.toFinset).erase x := by
    ext y
    rw [Finset.mem_sdiff, Finset.mem_erase, Finset.mem_sdiff, List.toFinset_cons,
      Finset.mem_insert]
    repeat rw [List.mem_toFinset]
    tauto
  have hpos : 0 < ((allIds steps).toFinset \ st.visited.toFinset).card :=
    Finset.card_pos.mpr ⟨x, hx⟩
  rw [hset, Finset.card_erase_of_mem hx]
  omega

/-! ### Soundness of the builder DFS, part 1: dichotomy and accessibility

On any graph with unique ids, `dfs` either succeeds — leaving every
popped id accessible in the dependency relation — or reports a circular
dependency; it never runs out of fuel. -/

/-- Invariant of the cycle-detection DFS. -/
structure CycInv (steps : List WStep) (st : CycSt) : Prop where
  visited_ids : ∀ i ∈ st.visited, i ∈ allIds steps
  rec_sub : ∀ i ∈ st.recStack, i ∈ st.visited
  acc_done : ∀ i ∈ st.visited, i ∉ st.recStack → Acc (depEdge steps) i

/-- Contract of `dfs`: success preserving the invariant and the
recursion stack, or a circular-dependency report. -/
def DfsOK (steps : List WStep) (fuel : Nat) : Prop :=
  ∀ stepId st, stepId ∈ allIds steps → stepId ∉ st.visited → CycInv steps st →
    cycM steps st + 1 ≤ fuel →
    (∃ st', dfs steps fuel stepId st = .ok st' ∧ CycInv steps st' ∧
      st'.recStack = st.recStack ∧
      (∀ i ∈ st.visited, i ∈ st'.visited) ∧ stepId ∈ st'.visited) ∨
    (∃ sid, dfs steps fuel stepId st = .error (.circularDependency sid))

theorem dfsFold_sound_of (steps : List WStep) (fuel : Nat) (hdfs : DfsOK steps fuel) :
    ∀ ds parent st, (∀ d ∈ ds, d ∈ allIds steps) → CycInv steps st →
      cycM steps st + 1 ≤ fuel →
      (∃ st', dfsFold (fun d s => dfs steps fuel d s) parent ds st = .ok st' ∧
        CycInv steps st' ∧ st'.recStack = st.recStack ∧
        (∀ i ∈ st.visited, i ∈ st'.visited) ∧
        (∀ d ∈ ds, Acc (depEdge steps) d)) ∨
      (∃ sid, dfsFold (fun d s => dfs steps fuel d s) parent ds st =
        .error (.circularDependency sid)) := by
  intro ds
  induction ds with
  | nil =>
    intro parent st _ hinv _
    exact Or.inl ⟨st, rfl, hinv, rfl, fun i h => h, by simp⟩
  | cons d ds ih =>
    intro parent st hds hinv hfuel
    by_cases hdv : d ∈ st.visited
    · by_cases hdr : d ∈ st.recStack
      · exact Or.inr ⟨parent, by simp [dfsFold, hdv, hdr]⟩
      · have haccd : Acc (depEdge steps) d := hinv.acc_done d hdv hdr
        rcases ih parent st (fun x hx => hds x (by simp [hx])) hinv hfuel with
          ⟨st', hrun, hinv', hrec', hmono', haccs⟩ | ⟨sid, herr⟩
        · refine Or.inl ⟨st', ?_, hinv', hrec', hmono', ?_⟩
          · simpa [dfsFold, hdv, hdr] using hrun
          · intro x hx
            rcases List.mem_cons.mp hx with rfl | hx'
            · exact haccd
            · exact haccs x hx'
        · exact Or.inr ⟨sid, by simpa [dfsFold, hdv, hdr] using herr⟩
    · rcases hdfs d st (hds d (by simp)) hdv hinv hfuel with
        ⟨st1, hd1, hinv1, hrec1, hmono1, hdvis1⟩ | ⟨sid, herr⟩
      · have haccd : Acc (depEdge steps) d := by
          apply hinv1.acc_done d hdvis1
          rw [hrec1]
          intro hmem
          exact hdv (hinv.rec_sub d hmem)
        have hfuel1 : cycM steps st1 + 1 ≤ fuel := by
          have := @cycM_mono steps _ _ hmono1
          omega
        rcases ih parent st1 (fun x hx => hds x (by simp [hx])) hinv1 hfuel1 with
          ⟨st2, hrun2, hinv2, hrec2, hmono2, haccs2⟩ | ⟨sid2, herr2⟩
        · refine Or.inl ⟨st2, ?_, hinv2, by rw [hrec2, hrec1],
            fun i h => hmono2 i (hmono1 i h), ?_⟩
          · simp only [dfsFold, if_neg hdv, hd1]
            exact hrun2
          · intro x hx
            rcases List.mem_cons.mp hx with rfl | hx'
            · exact haccd
            · exact haccs2 x hx'
        · refine Or.inr ⟨sid2, ?_⟩
          simp only [dfsFold, if_neg hdv, hd1]
          exact herr2
      · exact Or.inr ⟨sid, by simp only [dfsFold, if_neg hdv, herr]⟩

theorem dfs_sound (steps : List WStep) (hnd : (stepIds steps).Nodup) :
    ∀ fuel, DfsOK steps fuel := by
  intro fuel
  induction fuel with
  | zero =>
    intro stepId st _ _ _ hf
    omega
  | succ fuel ih =>
    intro stepId st hid hnv hinv hfuel
    have hnr : stepId ∉ st.recStack := fun h => hnv (hinv.rec_sub stepId h)
    have hinv1 : CycInv steps
        { visited := stepId :: st.visited, recStack := stepId :: st.recStack } :=
      { visited_ids := by
          intro i hi
          rcases List.mem_cons.mp hi with rfl | hi'
          · exact hid
          · exact hinv.visited_ids i hi'
        rec_sub := by
          intro i hi
          rcases List.mem_cons.mp hi with rfl | hi'
          · exact List.mem_cons_self _ _
          · exact List.mem_cons_of_mem _ (hinv.rec_sub i hi')
        acc_done := by
          intro i hi hni
          have hine : i ≠ stepId := fun h => hni (h ▸ List.mem_cons_self _ _)
          rcases List.mem_cons.mp hi with rfl | hi'
          · exact absurd rfl hine
          · exact hinv.acc_done i hi'
              (fun h => hni (List.mem_cons_of_mem _ h)) }
    have hfuel1 : cycM steps
        { visited := stepId :: st.visited, recStack := stepId :: st.recStack } + 1 ≤ fuel := by
      have := @cycM_push steps st _ (stepId :: st.recStack) hid hnv
      omega
    cases hlook : stepLookup steps stepId with
    | none =>
      refine Or.inl ⟨{ visited := stepId :: st.visited, recStack := st.recStack },
        ?_, ?_, rfl, fun i h => List.mem_cons_of_mem _ h, List.mem_cons_self _ _⟩
      · simp only [dfs, hlook]
        simp [dfsFold, List.erase_cons_head]
      · refine
          { visited_ids := hinv1.visited_ids
            rec_sub := ?_
            acc_done := ?_ }
        · intro i hi
          exact List.mem_cons_of_mem _ (hinv.rec_sub i hi)
        · intro i hi hni
          rcases List.mem_cons.mp hi with rfl | hi'
          · refine Acc.intro _ (fun y hy => ?_)
            obtain ⟨s, hs, hsid, _⟩ := hy
            exact absurd hsid (stepLookup_eq_none hlook s hs)
          · exact hinv.acc_done i hi' hni
    | some step =>
      obtain ⟨hsmem, hsid⟩ := stepLookup_eq_some hlook
      have hdeps_ids : ∀ d ∈ step.dependsOn, d ∈ allIds steps :=
        fun d hd => deps_sub_allIds hsmem hd
      rcases dfsFold_sound_of steps fuel ih step.dependsOn stepId
          { visited := stepId :: st.visited, recStack := stepId :: st.recStack }
          hdeps_ids hinv1 hfuel1 with
        ⟨st2, hrun, hinv2, hrec2, hmono2, haccs⟩ | ⟨sid, herr⟩
      · have herase : st2.recStack.erase stepId = st.recStack := by
          rw [hrec2]
          exact List.erase_cons_head stepId st.recStack
        refine Or.inl ⟨{ visited := st2.visited, recStack := st2.recStack.erase stepId },
          ?_, ?_, herase, fun i h => hmono2 i (List.mem_cons_of_mem _ h),
          hmono2 stepId (List.mem_cons_self _ _)⟩
        · simp only [dfs, hlook, hrun]
        · refine
            { visited_ids := hinv2.visited_ids
              rec_sub := ?_
              acc_done := ?_ }
          · intro i hi
            rw [herase] at hi
            exact hmono2 i (List.mem_cons_of_mem _ (hinv.rec_sub i hi))
          · intro i hi hni
            rw [herase] at hni
            by_cases hieq : i = stepId
            · subst hieq
              refine Acc.intro _ (fun y hy => ?_)
              obtain ⟨s, hs, hsid', hyd⟩ := hy
              have hss : s = step :=
                id_inj_of_nodup hnd hs hsmem (by rw [hsid', hsid])
              exact haccs y (hss ▸ hyd)
            · have hni2 : i ∉ st2.recStack := by
                rw [hrec2]
                intro hmem
                rcases List.mem_cons.mp hmem with h | h
                · exact hieq h
                · exact hni h
              exact hinv2.acc_done i hi hni2
      · refine Or.inr ⟨sid, ?_⟩
        simp only [dfs, hlook, herr]

theorem detectLoop_sound (steps : List WStep) (hnd : (stepIds steps).Nodup)
    (fuel : Nat) :
    ∀ ids st, (∀ i ∈ ids, i ∈ allIds steps) → CycInv steps st →
      st.recStack = [] → cycM steps st + 1 ≤ fuel →
      (∃ st', detectLoop steps fuel ids st = .ok st' ∧ CycInv steps st' ∧
        st'.recStack = [] ∧ (∀ i ∈ st.visited, i ∈ st'.visited) ∧
        (∀ i ∈ ids, i ∈ st'.visited)) ∨
      (∃ sid, detectLoop steps fuel ids st = .error (.circularDependency sid)) := by
  intro ids
  induction ids with
  | nil =>
    intro st _ hinv hrec _
    exact Or.inl ⟨st, rfl, hinv, hrec, fun i h => h, by simp⟩
  | cons i ids ih =>
    intro st hids hinv hrec hfuel
    by_cases hiv : i ∈ st.visited
    · rcases ih st (fun x hx => hids x (by simp [hx])) hinv hrec hfuel with
        ⟨st', hrun, hinv', hrec', hmono', hids'⟩ | ⟨sid, herr⟩
      · refine Or.inl ⟨st', by simpa [detectLoop, hiv] using hrun, hinv', hrec', hmono', ?_⟩
        intro x hx
        rcases List.mem_cons.mp hx with rfl | hx'
        · exact hmono' x hiv
        · exact hids' x hx'
      · exact Or.inr ⟨sid, by simpa [detectLoop, hiv] using herr⟩
    · rcases dfs_sound steps hnd fuel i st (hids i (by simp)) hiv hinv hfuel with
        ⟨st1, hd1, hinv1, hrec1, hmono1, hivis1⟩ | ⟨sid, herr⟩
      · have hfuel1 : cycM steps st1 + 1 ≤ fuel := by
          have := @cycM_mono steps _ _ hmono1
          omega
        rcases ih st1 (fun x hx => hids x (by simp [hx])) hinv1
            (by rw [hrec1]; exact hrec) hfuel1 with
          ⟨st2, hrun2, hinv2, hrec2, hmono2, hids2⟩ | ⟨sid2, herr2⟩
        · refine Or.inl ⟨st2, ?_, hinv2, hrec2,
            fun x hx => hmono2 x (hmono1 x hx), ?_⟩
          · simp only [detectLoop, if_neg hiv, hd1]
            exact hrun2
          · intro x hx
            rcases List.mem_cons.mp hx with rfl | hx'
            · exact hmono2 x hivis1
            · exact hids2 x hx'
        · refine Or.inr ⟨sid2, ?_⟩
          simp only [detectLoop, if_neg hiv, hd1]
          exact herr2
      · exact Or.inr ⟨sid, by simp only [detectLoop, if_neg hiv, herr]⟩

/-! ### Soundness of the builder DFS, part 2: rank-certified graphs
never report a cycle. -/

/-- Contract of `dfs` under a dependency ranking: unconditional
success. -/
def DfsOKR (steps : List WStep) (rank : String → Nat) (fuel : Nat) : Prop :=
  ∀ stepId st, stepId ∈ allIds steps → stepId ∉ st.visited →
    (∀ v ∈ st.recStack, rank stepId < rank v) →
    cycM steps st + 1 ≤ fuel →
    ∃ st', dfs steps fuel stepId st = .ok st' ∧ st'.recStack = st.recStack ∧
      (∀ i ∈ st.visited, i ∈ st'.visited) ∧ stepId ∈ st'.visited

theorem dfsFoldR_sound_of (steps : List WStep) (rank : String → Nat) (fuel : Nat)
    (hdfs : DfsOKR steps rank fuel) :
    ∀ ds parent st, (∀ d ∈ ds, d ∈ allIds steps) →
      (∀ d ∈ ds, ∀ v ∈ st.recStack, rank d < rank v) →
      cycM steps st + 1 ≤ fuel →
      ∃ st', dfsFold (fun d s => dfs steps fuel d s) parent ds st = .ok st' ∧
        st'.recStack = st.recStack ∧ (∀ i ∈ st.visited, i ∈ st'.visited) := by
  intro ds
  induction ds with
  | nil =>
    intro parent st _ _ _
    exact ⟨st, rfl, rfl, fun i h => h⟩
  | cons d ds ih =>
    intro parent st hds hrk hfuel
    by_cases hdv : d ∈ st.visited
    · have hdr : d ∉ st.recStack := fun hmem =>
        absurd (hrk d (by simp) d hmem) (lt_irrefl _)
      obtain ⟨st', hrun, hrec', hmono'⟩ :=
        ih parent st (fun x hx => hds x (by simp [hx]))
          (fun x hx v hv => hrk x (by simp [hx]) v hv) hfuel
      exact ⟨st', by simpa [dfsFold, hdv, hdr] using hrun, hrec', hmono'⟩
    · obtain ⟨st1, hd1, hrec1, hmono1, hdvis1⟩ :=
        hdfs d st (hds d (by simp)) hdv (hrk d (by simp)) hfuel
      have hfuel1 : cycM steps st1 + 1 ≤ fuel := by
        have := @cycM_mono steps _ _ hmono1
        omega
      obtain ⟨st2, hrun2, hrec2, hmono2⟩ :=
        ih parent st1 (fun x hx => hds x (by simp [hx]))
          (by
            intro x hx v hv
            rw [hrec1] at hv
            exact hrk x (by simp [hx]) v hv)
          hfuel1
      refine ⟨st2, ?_, by rw [hrec2, hrec1], fun i h => hmono2 i (hmono1 i h)⟩
      simp only [dfsFold, if_neg hdv, hd1]
      exact hrun2

theorem dfs_sound_rank (steps : List WStep) (rank : String → Nat)
    (hrank : RankOK steps rank) :
    ∀ fuel, DfsOKR steps rank fuel := by
  intro fuel
  induction fuel with
  | zero =>
    intro stepId st _ _ _ hf
    omega
  | succ fuel ih =>
    intro stepId st hid hnv hrk hfuel
    have hfuel1 : cycM steps
        { visited := stepId :: st.visited, recStack := stepId :: st.recStack } + 1 ≤ fuel := by
      have := @cycM_push steps st _ (stepId :: st.recStack) hid hnv
      omega
    cases hlook : stepLookup steps stepId with
    | none =>
      refine ⟨{ visited := stepId :: st.visited, recStack := st.recStack },
        ?_, rfl, fun i h => List.mem_cons_of_mem _ h, List.mem_cons_self _ _⟩
      simp only [dfs, hlook]
      simp [dfsFold, List.erase_cons_head]
    | some step =>
      obtain ⟨hsmem, hsid⟩ := stepLookup_eq_some hlook
      have hdeps_ids : ∀ d ∈ step.dependsOn, d ∈ allIds steps :=
        fun d hd => deps_sub_allIds hsmem hd
      have hdeps_rank : ∀ d ∈ step.dependsOn,
          ∀ v ∈ (stepId :: st.recStack), rank d < rank v := by
        intro d hd v hv
        have h1 : rank d < rank stepId := by
          have := hrank step hsmem d hd
          rwa [hsid] at this
        rcases List.mem_cons.mp hv with rfl | hv'
        · exact h1
        · exact lt_trans h1 (hrk v hv')
      obtain ⟨st2, hrun, hrec2, hmono2⟩ :=
        dfsFoldR_sound_of steps rank fuel ih step.dependsOn stepId
          { visited := stepId :: st.visited, recStack := stepId :: st.recStack }
          hdeps_ids hdeps_rank hfuel1
      have herase : st2.recStack.erase stepId = st.recStack := by
        rw [hrec2]
        exact List.erase_cons_head stepId st.recStack
      refine ⟨{ visited := st2.visited, recStack := st2.recStack.erase stepId },
        ?_, herase, fun i h => hmono2 i (List.mem_cons_of_mem _ h),
        hmono2 stepId (List.mem_cons_self _ _)⟩
      simp only [dfs, hlook, hrun]

theorem detectLoopR_sound (steps : List WStep) (rank : String → Nat)
    (hrank : RankOK steps rank) (fuel : Nat) :
    ∀ ids st, (∀ i ∈ ids, i ∈ allIds steps) → st.recStack = [] →
      cycM steps st + 1 ≤ fuel →
      ∃ st', detectLoop steps fuel ids st = .ok st' := by
  intro ids
  induction ids with
  | nil => intro st _ _ _; exact ⟨st, rfl⟩
  | cons i ids ih =>
    intro st hids hrec hfuel
    by_cases hiv : i ∈ st.visited
    · obtain ⟨st', hrun⟩ := ih st (fun x hx => hids x (by simp [hx])) hrec hfuel
      exact ⟨st', by simpa [detectLoop, hiv] using hrun⟩
    · obtain ⟨st1, hd1, hrec1, hmono1, _⟩ :=
        dfs_sound_rank steps rank hrank fuel i st (hids i (by simp)) hiv
          (by rw [hrec]; intro v hv; cases hv) hfuel
      have hfuel1 : cycM steps st1 + 1 ≤ fuel := by
        have := @cycM_mono steps _ _ hmono1
        omega
      obtain ⟨st2, hrun2⟩ := ih st1 (fun x hx => hids x (by simp [hx]))
        (by rw [hrec1]; exact hrec) hfuel1
      refine ⟨st2, ?_⟩
      simp only [detectLoop, if_neg hiv, hd1]
      exact hrun2

/-! ### Extracting a ranking from accessibility -/

/-- The dependencies of the step registered under id `i` (empty when the
id is unknown). -/
def depsOf (steps : List WStep) (i : String) : List String :=
  match stepLookup steps i with
  | none => []
  | some s => s.dependsOn

theorem depsOf_edge {steps : List WStep} {i d : String} (h : d ∈ depsOf steps i) :
    depEdge steps d i := by
  unfold depsOf at h
  cases hlook : stepLookup steps i with
  | none => rw [hlook] at h; cases h
  | some s =>
    rw [hlook] at h
    obtain ⟨hs, hid⟩ := stepLookup_eq_some hlook
    exact ⟨s, hs, hid, h⟩

theorem depsOf_self {steps : List WStep} (hnd : (stepIds steps).Nodup) {s : WStep}
    (hs : s ∈ steps) : depsOf steps s.id = s.dependsOn := by
  unfold depsOf
  cases hlook : stepLookup steps s.id with
  | none => exact absurd rfl (stepLookup_eq_none hlook s hs)
  | some t =>
    obtain ⟨ht, htid⟩ := stepLookup_eq_some hlook
    rw [id_inj_of_nodup hnd ht hs htid]

theorem le_foldr_max {l : List Nat} {a : Nat} (h : a ∈ l) : a ≤ l.foldr max 0 := by
  induction l with
  | nil => cases h
  | cons x t ih =>
    rcases List.mem_cons.mp h with rfl | h'
    · exact le_max_left _ _
    · exact le_trans (ih h') (le_max_right _ _)

/-- Height of an id in a well-founded dependency relation: one more than
the maximum height of its dependencies. -/
def rankOfWf (steps : List WStep) (wf : WellFounded (depEdge steps)) : String → Nat :=
  wf.fix (fun i rec =>
    ((depsOf steps i).attach.map (fun d => rec d.1 (depsOf_edge d.2))).foldr max 0 + 1)

theorem rankOfWf_lt (steps : List WStep) (wf : WellFounded (depEdge steps))
    (hnd : (stepIds steps).Nodup) {s : WStep} (hs : s ∈ steps) {d : String}
    (hd : d ∈ s.dependsOn) : rankOfWf steps wf d < rankOfWf steps wf s.id := by
  have hfix : rankOfWf steps wf s.id =
      ((depsOf steps s.id).attach.map
        (fun x => rankOfWf steps wf x.1)).foldr max 0 + 1 := by
    unfold rankOfWf
    rw [WellFounded.fix_eq]
  rw [hfix]
  have hd' : d ∈ depsOf steps s.id := by rw [depsOf_self hnd hs]; exact hd
  have hmem : rankOfWf steps wf d ∈
      ((depsOf steps s.id).attach.map (fun x => rankOfWf steps wf x.1)) :=
    List.mem_map.mpr ⟨⟨d, hd'⟩, List.mem_attach _ _, rfl⟩
  have := le_foldr_max hmem
  omega

theorem acyclic_of_acc (steps : List WStep) (hnd : (stepIds steps).Nodup)
    (hacc : ∀ i, Acc (depEdge steps) i) : Acyclic steps :=
  ⟨rankOfWf steps ⟨hacc⟩,
   fun s hs d hd => rankOfWf_lt steps ⟨hacc⟩ hnd hs hd⟩

/-! ### The dependency-existence scan -/

theorem checkDeps_none (steps : List WStep) (hRes : AllDepsResolve steps) :
    ∀ l, (∀ s ∈ l, s ∈ steps) → checkDeps steps l = none := by
  intro l
  induction l with
  | nil => intro _; rfl
  | cons s rest ih =>
    intro hsub
    have hfind : s.dependsOn.find? (fun d => !(decide (d ∈ stepIds steps))) = none := by
      rw [List.find?_eq_none]
      intro d hd
      simp [hRes s (hsub s (by simp)) d hd]
    simp only [checkDeps, hfind]
    exact ih (fun x hx => hsub x (by simp [hx]))

theorem checkDeps_err (steps : List WStep) :
    ∀ l, ¬ (∀ s ∈ l, ∀ d ∈ s.dependsOn, d ∈ stepIds steps) →
      ∃ sid dd, checkDeps steps l = some (.unknownDependency sid dd) := by
  intro l
  induction l with
  | nil =>
    intro h
    exact absurd (by intro s hs; cases hs) h
  | cons s rest ih =>
    intro h
    cases hfind : s.dependsOn.find? (fun d => !(decide (d ∈ stepIds steps))) with
    | some d => exact ⟨s.id, d, by simp [checkDeps, hfind]⟩
    | none =>
      have hs_ok : ∀ d ∈ s.dependsOn, d ∈ stepIds steps := by
        intro d hd
        have := List.find?_eq_none.mp hfind d hd
        simpa using this
      have hrest : ¬ (∀ t ∈ rest, ∀ d ∈ t.dependsOn, d ∈ stepIds steps) := by
        intro hall
        apply h
        intro t ht
        rcases List.mem_cons.mp ht with rfl | ht'
        · exact hs_ok
        · exact hall t ht'
      obtain ⟨sid, dd, hcd⟩ := ih hrest
      exact ⟨sid, dd, by simp [checkDeps, hfind, hcd]⟩

/-! ### Assembling `build()` correctness -/

theorem builder_fuel_ok (steps : List WStep) :
    cycM steps {} + 1 ≤ builderFuel steps := by
  have h1 : cycM steps ({} : CycSt) ≤ (allIds steps).toFinset.card := by
    unfold cycM
    exact Finset.card_le_card Finset.sdiff_subset
  have h2 : (allIds steps).toFinset.card ≤ (allIds steps).length :=
    List.toFinset_card_le _
  have h3 : (allIds steps).length =
      steps.length + (steps.map (fun s => s.dependsOn.length)).sum := by
    unfold allIds stepIds
    rw [List.length_append, List.length_map, List.length_flatten, List.map_map]
    rfl
  unfold builderFuel
  omega

theorem cycInv_init (steps : List WStep) : CycInv steps {} :=
  { visited_ids := by intro i hi; cases hi
    rec_sub := by intro i hi; cases hi
    acc_done := by intro i hi; cases hi }

/--
**C7.**  `build()` fails exactly on invalid graphs, and never hangs:
with no steps it fails with the empty-workflow error; with a
non-resolving `dependsOn` id it fails with an unknown-dependency error;
with a resolvable but cyclic dependency relation (¬`Acyclic`, which on a
finite graph is exactly the existence of a dependency cycle, including
the two-step cycle *A ↔ B*) it fails with a circular-dependency error;
and on every graph passing these checks it returns a definition whose
`steps` are exactly the added steps.  The four cases are exhaustive, so
the fuel-exhaustion outcome never occurs.
-/
theorem build_correct (wfId : String) (steps : List WStep) (groups : List PGroup)
    (handlers : List (String × RollbackStep)) (timeoutO : Option Nat)
    (hnd : (stepIds steps).Nodup) :
    (steps = [] → build wfId steps groups handlers timeoutO = .error .emptyWorkflow) ∧
    (steps ≠ [] → ¬ AllDepsResolve steps →
      ∃ sid dd, build wfId steps groups handlers timeoutO =
        .error (.unknownDependency sid dd)) ∧
    (steps ≠ [] → AllDepsResolve steps → ¬ Acyclic steps →
      ∃ sid, build wfId steps groups handlers timeoutO =
        .error (.circularDependency sid)) ∧
    (steps ≠ [] → AllDepsResolve steps → Acyclic steps →
      build wfId steps groups handlers timeoutO =
        .ok { id := wfId, steps := steps, parallelGroups := groups,
              errorHandlers := handlers, timeout := timeoutO }) := by
  refine ⟨?_, ?_, ?_, ?_⟩
  · intro h
    subst h
    rfl
  · intro hne hnRes
    unfold AllDepsResolve at hnRes
    obtain ⟨sid, dd, hcd⟩ := checkDeps_err steps steps hnRes
    have hlen : ¬ steps.length = 0 := by
      intro h
      exact hne (List.length_eq_zero.mp h)
    exact ⟨sid, dd, by simp [build, validate, hlen, hcd]⟩
  · intro hne hRes hnAcyc
    have hchk := checkDeps_none steps hRes steps (fun x hx => hx)
    have hlen : ¬ steps.length = 0 := by
      intro h
      exact hne (List.length_eq_zero.mp h)
    rcases detectLoop_sound steps hnd (builderFuel steps) (stepIds steps) {}
        (fun i h => stepIds_sub_allIds h) (cycInv_init steps) rfl
        (builder_fuel_ok steps) with
      ⟨st', hok, hinv', hrec', _, hall⟩ | ⟨sid, herr⟩
    · exfalso
      apply hnAcyc
      apply acyclic_of_acc steps hnd
      intro i
      by_cases hi : i ∈ stepIds steps
      · refine hinv'.acc_done i (hall i hi) ?_
        rw [hrec']
        intro h
        cases h
      · refine Acc.intro _ (fun y hy => ?_)
        obtain ⟨s, hs, hsid, _⟩ := hy
        exact absurd (hsid ▸ List.mem_map_of_mem WStep.id hs) hi
    · refine ⟨sid, ?_⟩
      simp [build, validate, hlen, hchk, detectCycles, herr]
  · intro hne hRes hacyc
    obtain ⟨rank, hrank⟩ := hacyc
    have hchk := checkDeps_none steps hRes steps (fun x hx => hx)
    have hlen : ¬ steps.length = 0 := by
      intro h
      exact hne (List.length_eq_zero.mp h)
    obtain ⟨st', hok⟩ :=
      detectLoopR_sound steps rank hrank (builderFuel steps) (stepIds steps) {}
        (fun i h => stepIds_sub_allIds h) rfl (builder_fuel_ok steps)
    simp [build, validate, hlen, hchk, detectCycles, hok]

/--
Witness for C7 at the spec's two-step cycle: `a` depends on `b` and `b`
depends on `a`; `build()` terminates with a circular-dependency error.
-/
theorem build_correct_witness :
    ∃ sid, build "wf"
        [{ id := "a", dependsOn := ["b"] }, { id := "b", dependsOn := ["a"] }]
        [] [] none =
      .error (.circularDependency sid) :=
  (build_correct "wf"
    [{ id := "a", dependsOn := ["b"] }, { id := "b", dependsOn := ["a"] }]
    [] [] none (by decide)).2.2.1
    (by decide)
    (by unfold AllDepsResolve; decide)
    (by
      rintro ⟨rank, hrank⟩
      have h1 := hrank { id := "a", dependsOn := ["b"] } (by simp) "b" (by simp)
      have h2 := hrank { id := "b", dependsOn := ["a"] } (by simp) "a" (by simp)
      simp only at h1 h2
      omega)

/-! ## Task construction (`src/sdk/src/orchestrator.ts`, lines 363–390) -/

/-- `buildTaskWithContext(step, context)`: shallow-copy the step's
static task, add `"<depId>_result"` for each dependency whose recorded
`state` entry is *truthy* (the source guards with `if (depData)`), then
attach the `_context` envelope. -/
def buildTaskWithContext (step : WStep) (state : Obj) (wfId sessId : String) : Obj :=
  let task1 := step.dependsOn.foldl (fun t d =>
    match objGet state d with
    | some v => if v.truthy then objSet t (d ++ "_result") v else t
    | none => t) step.task
  objSet task1 "_context"
    (.vObj [("workflowId", .vStr wfId), ("sessionId", .vStr sessId),
            ("stepId", .vStr step.id)])

/-! ### Association-list lemmas for `objSet` / `objGet` -/

theorem map_set_id : ∀ (t : Obj) (k : String) (v : Val),
    ¬ (t.any (fun q => q.1 = k)) = true →
    t.map (fun q => if q.1 = k then (k, v) else q) = t := by
  intro t k v ht
  induction t with
  | nil => rfl
  | cons p r ih =>
    have hp : ¬ p.1 = k := fun h => ht (by simp [h])
    have hr : ¬ (r.any (fun q => q.1 = k)) = true := fun h => ht (by simp [h])
    rw [List.map_cons, if_neg hp, ih hr]

theorem objGet_objSet_self : ∀ (o : Obj) (k : String) (v : Val),
    objGet (objSet o k v) k = some v := by
  intro o k v
  induction o with
  | nil => simp [objSet, objGet]
  | cons p t ih =>
    by_cases hp : p.1 = k
    · have hany : ((p :: t).any (fun q => q.1 = k)) = true := by simp [hp]
      rw [objSet, if_pos hany, List.map_cons, if_pos hp]
      unfold objGet
      rw [List.find?_cons_of_pos _ (by simp)]
      rfl
    · cases hany : (t.any (fun q => q.1 = k)) with
      | true =>
        have hany' : ((p :: t).any (fun q => q.1 = k)) = true := by simp [hany]
        rw [objSet, if_pos hany', List.map_cons, if_neg hp]
        unfold objGet
        rw [List.find?_cons_of_neg _ (by simp [hp])]
        have ih' := ih
        rw [objSet, if_pos hany] at ih'
        exact ih'
      | false =>
        have hany' : ¬ ((p :: t).any (fun q => q.1 = k)) = true := by
          simp [List.any_cons, hp, hany]
        rw [objSet, if_neg hany', List.cons_append]
        unfold objGet
        rw [List.find?_cons_of_neg _ (by simp [hp])]
        have ih' := ih
        rw [objSet, if_neg (by simp [hany])] at ih'
        exact ih'

theorem objGet_append_single : ∀ (o : Obj) (k : String) (v : Val) (k' : String),
    k' ≠ k → objGet (o ++ [(k, v)]) k' = objGet o k' := by
  intro o k v k' hne
  induction o with
  | nil =>
    unfold objGet
    rw [List.nil_append, List.find?_cons_of_neg _
      (by
        intro h
        have hk : k = k' := by simpa using h
        exact hne hk.symm),
      List.find?_nil]
  | cons p t ih =>
    unfold objGet
    rw [List.cons_append]
    by_cases hpk' : p.1 = k'
    · rw [List.find?_cons_of_pos _ (by simpa using hpk'),
        List.find?_cons_of_pos _ (by simpa using hpk')]
    · rw [List.find?_cons_of_neg _ (by simpa using hpk'),
        List.find?_cons_of_neg _ (by simpa using hpk')]
      exact ih

theorem objGet_objSet_other : ∀ (o : Obj) (k : String) (v : Val) (k' : String),
    k' ≠ k → objGet (objSet o k v) k' = objGet o k' := by
  intro o k v k' hne
  induction o with
  | nil =>
    have hobj : objSet [] k v = [(k, v)] := rfl
    rw [hobj]
    unfold objGet
    rw [List.find?_cons_of_neg _
      (by
        intro h
        have hk : k = k' := by simpa using h
        exact hne hk.symm)]
  | cons p t ih =>
    by_cases hany : ((p :: t).any (fun q => q.1 = k)) = true
    · rw [objSet, if_pos hany, List.map_cons]
      by_cases hp : p.1 = k
      · have hp' : ¬ p.1 = k' := by rw [hp]; exact fun h => hne h.symm
        rw [if_pos hp]
        unfold objGet
        rw [List.find?_cons_of_neg _
          (by
            intro h
            have hk : k = k' := by simpa using h
            exact hne hk.symm),
          List.find?_cons_of_neg _ (by simpa using hp')]
        by_cases ht : (t.any (fun q => q.1 = k)) = true
        · have ih' := ih
          rw [objSet, if_pos ht] at ih'
          exact ih'
        · rw [map_set_id t k v ht]
      · rw [if_neg hp]
        unfold objGet
        by_cases hpk' : p.1 = k'
        · rw [List.find?_cons_of_pos _ (by simpa using hpk'),
            List.find?_cons_of_pos _ (by simpa using hpk')]
        · rw [List.find?_cons_of_neg _ (by simpa using hpk'),
            List.find?_cons_of_neg _ (by simpa using hpk')]
          by_cases ht : (t.any (fun q => q.1 = k)) = true
          · have ih' := ih
            rw [objSet, if_pos ht] at ih'
            exact ih'
          · rw [map_set_id t k v ht]
    · rw [objSet, if_neg hany]
      exact objGet_append_single (p :: t) k v k' hne

/-! ### Keys derived from dependency ids -/

theorem result_key_inj {d e : String} (h : d ++ "_result" = e ++ "_result") :
    d = e := by
  have hd := congrArg String.data h
  rw [String.data_append, String.data_append] at hd
  exact congrArg String.mk (List.append_cancel_right hd)

theorem result_key_ne_context (d : String) : d ++ "_result" ≠ "_context" := by
  intro h
  have hd := congrArg String.data h
  rw [String.data_append] at hd
  have hlen := congrArg List.length hd
  rw [List.length_append] at hlen
  have h7 : ("_result".data).length = 7 := rfl
  have h8 : ("_context".data).length = 8 := rfl
  have hd1 : d.data.length = 1 := by omega
  rcases hc : d.data with _ | ⟨c, t⟩
  · rw [hc] at hd1
    simp at hd1
  · rw [hc] at hd1
    have ht : t = [] := by simpa using hd1
    subst ht
    rw [hc] at hd
    have hcons : c :: "_result".data = "_context".data := hd
    simp at hcons

/-! ### Behaviour of the dependency-merge fold -/

/-- The dependency-merge fold of `buildTaskWithContext`. -/
def depsFold (state : Obj) (ds : List String) (t : Obj) : Obj :=
  ds.foldl (fun t d =>
    match objGet state d with
    | some v => if v.truthy then objSet t (d ++ "_result") v else t
    | none => t) t

theorem depsFold_preserves (state : Obj) :
    ∀ (ds : List String) (t : Obj) (k : String),
      (∀ d ∈ ds, k ≠ d ++ "_result") →
      objGet (depsFold state ds t) k = objGet t k := by
  intro ds
  induction ds with
  | nil => intro t k _; rfl
  | cons d rest ih =>
    intro t k hk
    unfold depsFold
    rw [List.foldl_cons]
    cases hg : objGet state d with
    | none =>
      simp only [hg]
      exact ih t k (fun x hx => hk x (by simp [hx]))
    | some v =>
      simp only [hg]
      by_cases htr : v.truthy = true
      · rw [if_pos htr]
        rw [show ∀ t', rest.foldl _ t' = depsFold state rest t' from fun _ => rfl]
        rw [ih _ k (fun x hx => hk x (by simp [hx]))]
        exact objGet_objSet_other t (d ++ "_result") v k (hk d (by simp))
      · rw [if_neg htr]
        exact ih t k (fun x hx => hk x (by simp [hx]))

theorem depsFold_get (state : Obj) :
    ∀ (ds : List String) (t : Obj) (d : String) (v : Val),
      d ∈ ds → objGet state d = some v → v.truthy = true →
      objGet (depsFold state ds t) (d ++ "_result") = some v := by
  intro ds
  induction ds with
  | nil => intro t d v hd; cases hd
  | cons d0 rest ih =>
    intro t d v hd hg htr
    by_cases hdr : d ∈ rest
    · unfold depsFold
      rw [List.foldl_cons]
      exact ih _ d v hdr hg htr
    · have hd0 : d = d0 := by
        rcases List.mem_cons.mp hd with h | h
        · exact h
        · exact absurd h hdr
      subst hd0
      unfold depsFold
      rw [List.foldl_cons]
      simp only [hg]
      rw [if_pos htr]
      rw [show ∀ t', rest.foldl _ t' = depsFold state rest t' from fun _ => rfl]
      rw [depsFold_preserves state rest _ (d ++ "_result")
        (fun x hx h => hdr (by rw [result_key_inj h]; exact hx))]
      exact objGet_objSet_self t (d ++ "_result") v

/-! ## Workflow execution
(`src/sdk/src/orchestrator.ts`, lines 46–307)

Dispatch is modelled by an outcome oracle `out` (the settled result of
the retried `router.sendMessage` exchange for each step) and a duration
oracle `dur` (wall-clock time consumed executing the step, retries and
back-off included).  `Promise.all` over a parallel group is modelled by
executing every member in order: the source starts every member promise
eagerly, so each member runs and records its result even when a sibling
rejects.  A trace records each dispatch and each parallel-group start,
stamped with the elapsed time. -/

/-- Settled outcome of one step's (retried) dispatch. -/
inductive StepOutcome where
  | ok (data : Val)
  | err
  deriving DecidableEq

/-- Observable events of one execution. -/
inductive TraceEv where
  | dispatch (stepId : String) (msg : Msg) (atTime : Nat)
  | groupRun (gIdx : Nat) (atTime : Nat)
  deriving DecidableEq

/-- Errors aborting the execution loop. -/
inductive ExecErr where
  | stepFailed (stepId : String)
  | workflowTimeout
  | resolveError (e : String)
  deriving DecidableEq

/-- Mutable execution context (`WorkflowContext`) plus the ghost trace
and clock.  `startTime` is normalised to `0`, so `now` is the elapsed
time.  `pending` holds the in-flight settlements of parallel-group
members that were started but not awaited (`Promise.race` resumes the
loop at the first settlement, orchestrator.ts line 299): each entry is
the settle time with the result the member's continuation will record,
kept sorted by settle time. -/
structure ExecState where
  results : List StepRes := []
  state : Obj := []
  now : Nat := 0
  trace : List TraceEv := []
  pending : List (Nat × StepRes) := []
  deriving DecidableEq

/-- `context.results.get(id)`. -/
def resultsGet (rs : List StepRes) (i : String) : Option StepRes :=
  rs.find? (fun r => r.stepId = i)

/-- `context.results.set(id, r)`: a JS `Map` updates in place, else
appends. -/
def resultsSet (rs : List StepRes) (r : StepRes) : List StepRes :=
  if rs.any (fun x => x.stepId = r.stepId) then
    rs.map (fun x => if x.stepId = r.stepId then r else x)
  else rs ++ [r]

/-- `areDependenciesMet(step, context)` (orchestrator.ts lines
352–361). -/
def areDependenciesMet (step : WStep) (results : List StepRes) : Bool :=
  step.dependsOn.all (fun d =>
    match resultsGet results d with
    | some r => r.status = .completed
    | none => false)

/-- The continuation of one settled step promise (orchestrator.ts lines
209–213 on success, line 237 on failure): record the result and, on
success, the shared state entry. -/
def applySettle (st : ExecState) (r : StepRes) : ExecState :=
  match r.status, r.data with
  | .completed, some v =>
    { st with results := resultsSet st.results r
              state := objSet st.state r.stepId v }
  | _, _ => { st with results := resultsSet st.results r }

/-- Queue an in-flight settlement, keeping the list sorted by settle
time (stable: a later insertion goes after entries settling no later,
modelling the order continuations are queued in). -/
def insertPending (e : Nat × StepRes) : List (Nat × StepRes) → List (Nat × StepRes)
  | [] => [e]
  | f :: fs => if f.1 ≤ e.1 then f :: insertPending e fs else e :: f :: fs

/-- Run the continuations of every in-flight settlement due by time `t`
(they are queued before the main loop's own continuation resumes); the
remaining entries stay pending.  The caller passes the pending list and
the state with its pending field cleared. -/
def flushAux (t : Nat) : List (Nat × StepRes) → ExecState → ExecState
  | [], st => st
  | e :: es, st =>
    if e.1 ≤ t then flushAux t es (applySettle st e.2)
    else { st with pending := e :: es }

/-- `executeStep` (orchestrator.ts lines 142–260), observed at the step
boundary: check dependencies, build the task, dispatch (recording the
message and advancing the clock by the step's duration), record the
result in `results` and `state`, and return `some stepId` when the step
threw (a required failure), `none` otherwise (success, or an optional
step's failure).  In-flight settlements due during the await are
recorded before the step's own (their continuations were queued
first). -/
def executeStepM (out : String → StepOutcome) (dur : String → Nat)
    (wfId sessId : String) (step : WStep) (st : ExecState) :
    ExecState × Option String :=
  if areDependenciesMet step st.results then
    let task := buildTaskWithContext step st.state wfId sessId
    let msg : Msg := { recipient := step.agentId, intent := step.intent, task := task }
    let st1 : ExecState :=
      flushAux (st.now + dur step.id) st.pending
        { st with trace := st.trace ++ [.dispatch step.id msg st.now]
                  now := st.now + dur step.id
                  pending := [] }
    match out step.id with
    | .ok v =>
      ({ st1 with results := resultsSet st1.results ⟨step.id, .completed, some v⟩
                  state := objSet st1.state step.id v }, none)
    | .err =>
      let st2 : ExecState :=
        { st1 with results := resultsSet st1.results ⟨step.id, .failed, none⟩ }
      if step.optional then (st2, none) else (st2, some step.id)
  else
    let st2 : ExecState :=
      { st with results := resultsSet st.results ⟨step.id, .failed, none⟩ }
    if step.optional then (st2, none) else (st2, some step.id)

/-- Execute every member of a parallel group in order (the source
starts all member promises eagerly), collecting each member's thrown
error slot. -/
def executeGroupSteps (out : String → StepOutcome) (dur : String → Nat)
    (wfId sessId : String) : List WStep → ExecState → ExecState × List (Option String)
  | [], st => (st, [])
  | m :: ms, st =>
    let r1 := executeStepM out dur wfId sessId m st
    let r2 := executeGroupSteps out dur wfId sessId ms r1.1
    (r2.1, r1.2 :: r2.2)

/-- First error of the member error slots (the first rejection wins
`Promise.all`). -/
def firstErr : List (Option String) → Option String
  | [] => none
  | some e :: _ => some e
  | none :: rest => firstErr rest

/-- The eager start of one race-group member (`executeStep` runs
synchronously up to its first await, orchestrator.ts lines 142–195):
the dependency check and the dispatch happen at once; a member with
unmet dependencies records its failure immediately and settles at once
(its `catch` block runs before any await), a dispatched member settles
after its duration.  Returns the updated state with the member's settle
time, its deferred recording (none when already recorded), and its
rejection slot. -/
def raceStart (out : String → StepOutcome) (dur : String → Nat)
    (wfId sessId : String) (m : WStep) (st : ExecState) :
    ExecState × Nat × Option StepRes × Option String :=
  if areDependenciesMet m st.results then
    let task := buildTaskWithContext m st.state wfId sessId
    let msg : Msg := { recipient := m.agentId, intent := m.intent, task := task }
    let st1 : ExecState := { st with trace := st.trace ++ [.dispatch m.id msg st.now] }
    match out m.id with
    | .ok v => (st1, st.now + dur m.id, some ⟨m.id, .completed, some v⟩, none)
    | .err => (st1, st.now + dur m.id, some ⟨m.id, .failed, none⟩,
        if m.optional then none else some m.id)
  else
    ({ st with results := resultsSet st.results ⟨m.id, .failed, none⟩ },
     st.now, none, if m.optional then none else some m.id)

/-- Start every member of a race group in order (`group.steps.map`,
orchestrator.ts line 274, runs each `executeStep` synchronously up to
its first await), collecting the settlement descriptors. -/
def raceStartAll (out : String → StepOutcome) (dur : String → Nat)
    (wfId sessId : String) :
    List WStep → ExecState → ExecState × List (Nat × Option StepRes × Option String)
  | [], st => (st, [])
  | m :: ms, st =>
    let r1 := raceStart out dur wfId sessId m st
    let r2 := raceStartAll out dur wfId sessId ms r1.1
    (r2.1, r1.2 :: r2.2)

/-- The batch's first settlement (`Promise.race`): minimal settle time,
earliest in start order on ties. -/
def raceWinner : List (Nat × Option StepRes × Option String) →
    Option (Nat × Option StepRes × Option String)
  | [] => none
  | e :: es =>
    match raceWinner es with
    | none => some e
    | some f => if e.1 ≤ f.1 then some e else some f

/-- `waitForAll = false` (orchestrator.ts lines 297–300): every member
is started eagerly, but only the first settlement is awaited; the loop
resumes at that settlement with the other members still in flight —
their settlements are queued in `pending` and recorded only at later
await points.  Settlements due by the resume time (including the
winner's own) are recorded before the loop continues.  A group with no
members never settles (`Promise.race([])`); it is unreachable, since no
step belongs to it. -/
def executeRaceGroup (out : String → StepOutcome) (dur : String → Nat)
    (wfId sessId : String) (g : PGroup) (st0 : ExecState) :
    ExecState × Option String :=
  let r := raceStartAll out dur wfId sessId g.steps st0
  match raceWinner r.2 with
  | none => (r.1, none)
  | some win =>
    let newPending : List (Nat × StepRes) :=
      (r.2.filterMap (fun e => e.2.1.map (fun res => (e.1, res)))).foldl
        (fun p e => insertPending e p) r.1.pending
    let st2 : ExecState :=
      flushAux win.1 newPending { r.1 with now := win.1, pending := [] }
    (st2, if g.continueOnError then none else win.2.2)

/-- `executeParallelGroup` (orchestrator.ts lines 265–307).  With
`waitForAll` the loop resumes only after every member settled and
recorded its result (`Promise.all`; `continueOnError` converts member
rejections into resolutions, so the first unconverted rejection fails
the group).  Without it, `Promise.race` resumes the loop at the first
settlement, deciding the group's outcome, while the remaining members
stay in flight. -/
def executeParallelGroupM (out : String → StepOutcome) (dur : String → Nat)
    (wfId sessId : String) (gIdx : Nat) (g : PGroup) (st : ExecState) :
    ExecState × Option String :=
  let st0 : ExecState := { st with trace := st.trace ++ [.groupRun gIdx st.now] }
  if g.waitForAll then
    let r := executeGroupSteps out dur wfId sessId g.steps st0
    (r.1, if g.continueOnError then none else firstErr r.2)
  else
    executeRaceGroup out dur wfId sessId g st0

/-- `findParallelGroup` (orchestrator.ts lines 395–402), annotated with
the group's index for the trace. -/
def findPGAux (i : String) : Nat → List PGroup → Option (Nat × PGroup)
  | _, [] => none
  | n, g :: gs =>
    if g.steps.any (fun s => s.id = i) then some (n, g)
    else findPGAux i (n + 1) gs

def findParallelGroup (step : WStep) (groups : List PGroup) : Option (Nat × PGroup) :=
  findPGAux step.id 0 groups

/-- The workflow-timeout test of `executeWorkflow` (orchestrator.ts
lines 132–135): `workflow.timeout && Date.now() - context.startTime >
workflow.timeout` — a zero timeout is falsy and disables the check. -/
def checkTimeout (w : WorkflowDefinition) (st : ExecState) : Bool :=
  match w.timeout with
  | none => false
  | some t => t != 0 && decide (st.now > t)

/-- The `for (const step of executionOrder)` loop of `executeWorkflow`
(orchestrator.ts lines 115–136).  A parallel-group member that already
has a result is skipped with `continue` (which also skips the timeout
check); otherwise the step or its whole group is executed and the
workflow timeout is checked at the boundary. -/
def execLoop (out : String → StepOutcome) (dur : String → Nat)
    (w : WorkflowDefinition) (sessId : String) :
    List WStep → ExecState → ExecState × Option ExecErr
  | [], st => (st, none)
  | step :: rest, st =>
    match findParallelGroup step w.parallelGroups with
    | some (gIdx, g) =>
      if (resultsGet st.results step.id).isSome then
        execLoop out dur w sessId rest st
      else
        let r := executeParallelGroupM out dur w.id sessId gIdx g st
        match r.2 with
        | some e => (r.1, some (.stepFailed e))
        | none =>
          if checkTimeout w r.1 then (r.1, some .workflowTimeout)
          else execLoop out dur w sessId rest r.1
    | none =>
      let r := executeStepM out dur w.id sessId step st
      match r.2 with
      | some e => (r.1, some (.stepFailed e))
      | none =>
        if checkTimeout w r.1 then (r.1, some .workflowTimeout)
        else execLoop out dur w sessId rest r.1

/-- `executeWorkflow` (orchestrator.ts lines 106–137): resolve the
execution order, then run the loop from the fresh context. -/
def executeWorkflowM (out : String → StepOutcome) (dur : String → Nat)
    (w : WorkflowDefinition) (sessId : String) : ExecState × Option ExecErr :=
  match resolveExecutionOrder w.steps with
  | .error e => ({}, some (.resolveError e))
  | .ok order => execLoop out dur w sessId order {}

/-- Workflow-level status (`WorkflowStatus`). -/
inductive WStatus where
  | completed
  | failed
  | rolledBack
  deriving DecidableEq

/-- Result of one `execute` call. -/
structure ExecOutcome where
  status : WStatus
  finalState : ExecState
  error : Option ExecErr
  rollbackMsgs : List Msg
  deriving DecidableEq

/-- `execute` (orchestrator.ts lines 46–101): run the workflow; on any
error, roll back whatever completed and report `rolled_back` when at
least one compensation was dispatched, else `failed`. -/
def executeM (out : String → StepOutcome) (dur : String → Nat)
    (rollbackFails : String → Bool) (w : WorkflowDefinition) (sessId : String) :
    ExecOutcome :=
  let r := executeWorkflowM out dur w sessId
  match r.2 with
  | none =>
    { status := .completed, finalState := r.1, error := none, rollbackMsgs := [] }
  | some e =>
    let rb := rollbackM w r.1.results rollbackFails
    { status := if rb.2 > 0 then .rolledBack else .failed
      finalState := r.1, error := some e, rollbackMsgs := rb.1 }

/-! ### Trace observables -/

/-- Step ids dispatched, in order. -/
def dispatchIds (tr : List TraceEv) : List String :=
  tr.filterMap (fun ev => match ev with
    | .dispatch i _ _ => some i
    | _ => none)

/-- Indices of the parallel groups whose execution was started, in
order. -/
def groupRunsOf (tr : List TraceEv) : List Nat :=
  tr.filterMap (fun ev => match ev with
    | .groupRun n _ => some n
    | _ => none)

/-- The first message dispatched for a given step id. -/
def dispatchedMsg (tr : List TraceEv) (i : String) : Option Msg :=
  (tr.filterMap (fun ev => match ev with
    | .dispatch j m _ => if j = i then some m else none
    | _ => none)).head?

/-! ### C8: the dispatched task payload -/

/-- The spec's `fetch → transform → notify` chain. -/
def chainW : WorkflowDefinition :=
  { id := "wf"
    steps := [{ id := "fetch", agentId := "A", intent := "get" },
              { id := "transform", agentId := "B", intent := "tr",
                dependsOn := ["fetch"] },
              { id := "notify", agentId := "C", intent := "no",
                dependsOn := ["transform"] }] }

/--
**Counterexample to C8 as stated.**  The claim promises a
`"<depId>_result"` field for *every* dependency whose recorded result is
completed.  The source guards the merge with `if (depData)`, so a
dependency that completed with falsy result data contributes no field:
running `fetch → transform` where `fetch` completes with data `0`, both
results are `completed` (fetch's with data `0`), yet the task dispatched
for `transform` has no `"fetch_result"` field.
-/
theorem build_task_counterexample :
    (executeM (fun i => if i = "fetch" then .ok (.vNum 0) else .ok (.vStr "T"))
        (fun _ => 0) (fun _ => false) chainW "s").finalState.results.map
        (fun r => (r.stepId, r.status, r.data)) =
      [("fetch", .completed, some (.vNum 0)),
       ("transform", .completed, some (.vStr "T")),
       ("notify", .completed, some (.vStr "T"))] ∧
    (dispatchedMsg (executeM
        (fun i => if i = "fetch" then .ok (.vNum 0) else .ok (.vStr "T"))
        (fun _ => 0) (fun _ => false) chainW "s").finalState.trace
        "transform").map (fun m => objGet m.task "fetch_result") =
      some none := by
  exact ⟨rfl, rfl⟩

/--
**C8 (amended).**  For every step, the dispatched task payload is the
shallow merge of the step's static task fields with, for every
dependency `depId` whose recorded result data is *truthy*, a field
`"<depId>_result"` bound to that data (falsy data — `null`, `undefined`,
`false`, `0`, `""` — contributes no field), plus a `_context` envelope
carrying the workflow id, session id and step id; static fields not
shadowed by a derived field or by `_context` pass through untouched.
In the `fetch → transform` chain with truthy fetch output `"F"`, all
three steps complete in order and `transform`'s dispatched task carries
`fetch_result = "F"`.
-/
theorem build_task_with_context_spec (step : WStep) (state : Obj)
    (wfId sessId : String) :
    objGet (buildTaskWithContext step state wfId sessId) "_context" =
      some (.vObj [("workflowId", .vStr wfId), ("sessionId", .vStr sessId),
                   ("stepId", .vStr step.id)]) ∧
    (∀ d ∈ step.dependsOn, ∀ v, objGet state d = some v → v.truthy = true →
      objGet (buildTaskWithContext step state wfId sessId) (d ++ "_result") =
        some v) ∧
    (∀ k, k ≠ "_context" → (∀ d ∈ step.dependsOn, k ≠ d ++ "_result") →
      objGet (buildTaskWithContext step state wfId sessId) k =
        objGet step.task k) ∧
    ((executeM (fun i => if i = "fetch" then .ok (.vStr "F") else .ok (.vStr "T"))
        (fun _ => 0) (fun _ => false) chainW "s").finalState.results.map
        (fun r => (r.stepId, r.status)) =
      [("fetch", .completed), ("transform", .completed),
       ("notify", .completed)] ∧
     (dispatchedMsg (executeM
        (fun i => if i = "fetch" then .ok (.vStr "F") else .ok (.vStr "T"))
        (fun _ => 0) (fun _ => false) chainW "s").finalState.trace
        "transform").map (fun m => objGet m.task "fetch_result") =
      some (some (.vStr "F"))) := by
  refine ⟨?_, ?_, ?_, rfl, rfl⟩
  · exact objGet_objSet_self _ _ _
  · intro d hd v hg htr
    show objGet (objSet (depsFold state step.dependsOn step.task) "_context" _)
      (d ++ "_result") = some v
    rw [objGet_objSet_other _ _ _ _ (result_key_ne_context d)]
    exact depsFold_get state step.dependsOn step.task d v hd hg htr
  · intro k hk hks
    show objGet (objSet (depsFold state step.dependsOn step.task) "_context" _) k =
      objGet step.task k
    rw [objGet_objSet_other _ _ _ _ hk]
    exact depsFold_preserves state step.dependsOn step.task k hks

/--
Witness for C8 (amended): a step depending on `f` whose state entry is
the truthy string `"F"` receives `f_result = "F"`, and its static field
`x` passes through.
-/
theorem build_task_with_context_spec_witness :
    objGet (buildTaskWithContext
      { id := "t", dependsOn := ["f"], task := [("x", .vStr "1")] }
      [("f", .vStr "F")] "w" "s") ("f" ++ "_result") = some (.vStr "F") ∧
    objGet (buildTaskWithContext
      { id := "t", dependsOn := ["f"], task := [("x", .vStr "1")] }
      [("f", .vStr "F")] "w" "s") "x" = some (.vStr "1") := by
  constructor
  · exact (build_task_with_context_spec
      { id := "t", dependsOn := ["f"], task := [("x", .vStr "1")] }
      [("f", .vStr "F")] "w" "s").2.1 "f" (by simp) (.vStr "F") rfl rfl
  · exact (build_task_with_context_spec
      { id := "t", dependsOn := ["f"], task := [("x", .vStr "1")] }
      [("f", .vStr "F")] "w" "s").2.2.1 "x" (by decide) (by decide)

/-! ### Results-map lemmas -/

theorem results_map_set_id : ∀ (rs : List StepRes) (r : StepRes),
    ¬ (rs.any (fun x => x.stepId = r.stepId)) = true →
    rs.map (fun x => if x.stepId = r.stepId then r else x) = rs := by
  intro rs r ht
  induction rs with
  | nil => rfl
  | cons p t ih =>
    have hp : ¬ p.stepId = r.stepId := fun h => ht (by simp [h])
    have hr : ¬ (t.any (fun x => x.stepId = r.stepId)) = true :=
      fun h => ht (by simp [h])
    rw [List.map_cons, if_neg hp, ih hr]

theorem resultsGet_set_self : ∀ (rs : List StepRes) (r : StepRes),
    resultsGet (resultsSet rs r) r.stepId = some r := by
  intro rs r
  induction rs with
  | nil => simp [resultsSet, resultsGet]
  | cons p t ih =>
    by_cases hp : p.stepId = r.stepId
    · have hany : ((p :: t).any (fun x => x.stepId = r.stepId)) = true := by
        simp [hp]
      rw [resultsSet, if_pos hany, List.map_cons, if_pos hp]
      unfold resultsGet
      rw [List.find?_cons_of_pos _ (by simp)]
    · cases hany : (t.any (fun x => x.stepId = r.stepId)) with
      | true =>
        have hany' : ((p :: t).any (fun x => x.stepId = r.stepId)) = true := by
          simp [hany]
        rw [resultsSet, if_pos hany', List.map_cons, if_neg hp]
        unfold resultsGet
        rw [List.find?_cons_of_neg _ (by simp [hp])]
        have ih' := ih
        rw [resultsSet, if_pos hany] at ih'
        exact ih'
      | false =>
        have hany' : ¬ ((p :: t).any (fun x => x.stepId = r.stepId)) = true := by
          simp [List.any_cons, hp, hany]
        rw [resultsSet, if_neg hany', List.cons_append]
        unfold resultsGet
        rw [List.find?_cons_of_neg _ (by simp [hp])]
        have ih' := ih
        rw [resultsSet, if_neg (by simp [hany])] at ih'
        exact ih'

theorem resultsGet_append_single : ∀ (rs : List StepRes) (r : StepRes) (i : String),
    i ≠ r.stepId → resultsGet (rs ++ [r]) i = resultsGet rs i := by
  intro rs r i hne
  induction rs with
  | nil =>
    unfold resultsGet
    rw [List.nil_append, List.find?_cons_of_neg _
      (by
        intro h
        have hk : r.stepId = i := by simpa using h
        exact hne hk.symm),
      List.find?_nil]
  | cons p t ih =>
    unfold resultsGet
    rw [List.cons_append]
    by_cases hpk : p.stepId = i
    · rw [List.find?_cons_of_pos _ (by simpa using hpk),
        List.find?_cons_of_pos _ (by simpa using hpk)]
    · rw [List.find?_cons_of_neg _ (by simpa using hpk),
        List.find?_cons_of_neg _ (by simpa using hpk)]
      exact ih

theorem resultsGet_set_other : ∀ (rs : List StepRes) (r : StepRes) (i : String),
    i ≠ r.stepId → resultsGet (resultsSet rs r) i = resultsGet rs i := by
  intro rs r i hne
  induction rs with
  | nil =>
    rw [resultsSet, if_neg (by simp)]
    exact resultsGet_append_single [] r i hne
  | cons p t ih =>
    by_cases hany : ((p :: t).any (fun x => x.stepId = r.stepId)) = true
    · rw [resultsSet, if_pos hany, List.map_cons]
      by_cases hp : p.stepId = r.stepId
      · have hp' : ¬ p.stepId = i := by rw [hp]; exact fun h => hne h.symm
        rw [if_pos hp]
        unfold resultsGet
        rw [List.find?_cons_of_neg _
          (by
            intro h
            have hk : r.stepId = i := by simpa using h
            exact hne hk.symm),
          List.find?_cons_of_neg _ (by simpa using hp')]
        by_cases ht : (t.any (fun x => x.stepId = r.stepId)) = true
        · have ih' := ih
          rw [resultsSet, if_pos ht] at ih'
          exact ih'
        · rw [results_map_set_id t r ht]
      · rw [if_neg hp]
        unfold resultsGet
        by_cases hpk : p.stepId = i
        · rw [List.find?_cons_of_pos _ (by simpa using hpk),
            List.find?_cons_of_pos _ (by simpa using hpk)]
        · rw [List.find?_cons_of_neg _ (by simpa using hpk),
            List.find?_cons_of_neg _ (by simpa using hpk)]
          by_cases ht : (t.any (fun x => x.stepId = r.stepId)) = true
          · have ih' := ih
            rw [resultsSet, if_pos ht] at ih'
            exact ih'
          · rw [results_map_set_id t r ht]
    · rw [resultsSet, if_neg hany]
      exact resultsGet_append_single (p :: t) r i hne

/-! ### Trace observables under appends -/

theorem dispatchIds_append (tr tr' : List TraceEv) :
    dispatchIds (tr ++ tr') = dispatchIds tr ++ dispatchIds tr' := by
  unfold dispatchIds
  exact List.filterMap_append _ _ _

theorem groupRunsOf_append (tr tr' : List TraceEv) :
    groupRunsOf (tr ++ tr') = groupRunsOf tr ++ groupRunsOf tr' := by
  unfold groupRunsOf
  exact List.filterMap_append _ _ _

/-! ### Effect of one `executeStep` -/

theorem executeStepM_spec (out : String → StepOutcome) (dur : String → Nat)
    (wfId sessId : String) (step : WStep) (st : ExecState)
    (hp : st.pending = []) :
    (dispatchIds (executeStepM out dur wfId sessId step st).1.trace =
        dispatchIds st.trace ∨
      dispatchIds (executeStepM out dur wfId sessId step st).1.trace =
        dispatchIds st.trace ++ [step.id]) ∧
    groupRunsOf (executeStepM out dur wfId sessId step st).1.trace =
      groupRunsOf st.trace ∧
    (resultsGet (executeStepM out dur wfId sessId step st).1.results
      step.id).isSome = true ∧
    (∀ i, i ≠ step.id →
      resultsGet (executeStepM out dur wfId sessId step st).1.results i =
        resultsGet st.results i) ∧
    (executeStepM out dur wfId sessId step st).1.pending = [] := by
  unfold executeStepM
  by_cases hdeps : areDependenciesMet step st.results = true
  · rw [if_pos hdeps]
    simp only [hp, flushAux]
    cases hout : out step.id with
    | ok v =>
      simp only [hout]
      refine ⟨Or.inr ?_, ?_, ?_, ?_, by trivial⟩
      · rw [dispatchIds_append]; rfl
      · rw [groupRunsOf_append]; simp [groupRunsOf]
      · rw [show step.id = (⟨step.id, .completed, some v⟩ : StepRes).stepId from rfl,
          resultsGet_set_self]
        rfl
      · intro i hi
        exact resultsGet_set_other _ _ i hi
    | err =>
      simp only [hout]
      by_cases hopt : step.optional = true
      · rw [if_pos hopt]
        refine ⟨Or.inr ?_, ?_, ?_, ?_, by trivial⟩
        · rw [dispatchIds_append]; rfl
        · rw [groupRunsOf_append]; simp [groupRunsOf]
        · rw [show step.id = (⟨step.id, .failed, none⟩ : StepRes).stepId from rfl,
            resultsGet_set_self]
          rfl
        · intro i hi
          exact resultsGet_set_other _ _ i hi
      · rw [if_neg hopt]
        refine ⟨Or.inr ?_, ?_, ?_, ?_, by trivial⟩
        · rw [dispatchIds_append]; rfl
        · rw [groupRunsOf_append]; simp [groupRunsOf]
        · rw [show step.id = (⟨step.id, .failed, none⟩ : StepRes).stepId from rfl,
            resultsGet_set_self]
          rfl
        · intro i hi
          exact resultsGet_set_other _ _ i hi
  · rw [if_neg hdeps]
    by_cases hopt : step.optional = true
    · rw [if_pos hopt]
      refine ⟨Or.inl rfl, rfl, ?_, ?_, hp⟩
      · rw [show step.id = (⟨step.id, .failed, none⟩ : StepRes).stepId from rfl,
          resultsGet_set_self]
        rfl
      · intro i hi
        exact resultsGet_set_other _ _ i hi
    · rw [if_neg hopt]
      refine ⟨Or.inl rfl, rfl, ?_, ?_, hp⟩
      · rw [show step.id = (⟨step.id, .failed, none⟩ : StepRes).stepId from rfl,
          resultsGet_set_self]
        rfl
      · intro i hi
        exact resultsGet_set_other _ _ i hi

/-! ### Effect of a parallel-group execution -/

theorem executeGroupSteps_spec (out : String → StepOutcome) (dur : String → Nat)
    (wfId sessId : String) :
    ∀ (ms : List WStep) (st : ExecState), st.pending = [] →
      groupRunsOf (executeGroupSteps out dur wfId sessId ms st).1.trace =
        groupRunsOf st.trace ∧
      (∀ m ∈ ms, (resultsGet
        (executeGroupSteps out dur wfId sessId ms st).1.results m.id).isSome = true) ∧
      (∀ i, (∀ m ∈ ms, i ≠ m.id) →
        resultsGet (executeGroupSteps out dur wfId sessId ms st).1.results i =
          resultsGet st.results i) ∧
      (∃ new, dispatchIds (executeGroupSteps out dur wfId sessId ms st).1.trace =
          dispatchIds st.trace ++ new ∧
        (∀ i ∈ new, ∃ m ∈ ms, m.id = i) ∧
        ((ms.map (fun m => m.id)).Nodup → new.Nodup)) ∧
      (executeGroupSteps out dur wfId sessId ms st).1.pending = [] := by
  intro ms
  induction ms with
  | nil =>
    intro st hp
    exact ⟨rfl, by simp, fun i _ => rfl, ⟨[], by simp [executeGroupSteps],
      by simp, fun _ => List.nodup_nil⟩, hp⟩
  | cons m ms ih =>
    intro st hp
    obtain ⟨hgr1, hdis1, hself1, hother1, hpend1⟩ :=
      executeStepM_spec out dur wfId sessId m st hp
    obtain ⟨hgr2, hmem2, hother2, ⟨new2, hnew2, hnew2mem, hnew2nd⟩, hpend2⟩ :=
      ih (executeStepM out dur wfId sessId m st).1 hpend1
    refine ⟨?_, ?_, ?_, ?_, hpend2⟩
    · show groupRunsOf (executeGroupSteps out dur wfId sessId ms
        (executeStepM out dur wfId sessId m st).1).1.trace = _
      rw [hgr2, hdis1]
    · intro x hx
      rcases List.mem_cons.mp hx with hEq | hx'
      · subst hEq
        show (resultsGet (executeGroupSteps out dur wfId sessId ms
          (executeStepM out dur wfId sessId x st).1).1.results x.id).isSome = true
        by_cases hxin : ∀ m' ∈ ms, x.id ≠ m'.id
        · rw [hother2 x.id hxin]
          exact hself1
        · push_neg at hxin
          obtain ⟨m', hm', hxid⟩ := hxin
          rw [hxid]
          exact hmem2 m' hm'
      · exact hmem2 x hx'
    · intro i hi
      show resultsGet (executeGroupSteps out dur wfId sessId ms
        (executeStepM out dur wfId sessId m st).1).1.results i = _
      rw [hother2 i (fun m' hm' => hi m' (by simp [hm']))]
      exact hother1 i (hi m (by simp))
    · rcases hgr1 with hd1 | hd1
      · refine ⟨new2, ?_, ?_, ?_⟩
        · show dispatchIds (executeGroupSteps out dur wfId sessId ms
            (executeStepM out dur wfId sessId m st).1).1.trace = _
          rw [hnew2, hd1]
        · intro i hi
          obtain ⟨m', hm', hmi⟩ := hnew2mem i hi
          exact ⟨m', by simp [hm'], hmi⟩
        · intro hnd
          exact hnew2nd (by simpa using hnd.of_cons)
      · refine ⟨m.id :: new2, ?_, ?_, ?_⟩
        · show dispatchIds (executeGroupSteps out dur wfId sessId ms
            (executeStepM out dur wfId sessId m st).1).1.trace = _
          rw [hnew2, hd1, List.append_assoc]
          rfl
        · intro i hi
          rcases List.mem_cons.mp hi with rfl | hi'
          · exact ⟨m, by simp, rfl⟩
          · obtain ⟨m', hm', hmi⟩ := hnew2mem i hi'
            exact ⟨m', by simp [hm'], hmi⟩
        · intro hnd
          rw [List.map_cons] at hnd
          rw [List.nodup_cons] at hnd ⊢
          refine ⟨?_, hnew2nd hnd.2⟩
          intro hmem
          obtain ⟨m', hm', hmi⟩ := hnew2mem m.id hmem
          exact hnd.1 (hmi ▸ List.mem_map_of_mem (fun x => x.id) hm')

theorem executeParallelGroupM_spec (out : String → StepOutcome)
    (dur : String → Nat) (wfId sessId : String) (gIdx : Nat) (g : PGroup)
    (st : ExecState) (hwa : g.waitForAll = true) (hp : st.pending = []) :
    groupRunsOf (executeParallelGroupM out dur wfId sessId gIdx g st).1.trace =
      groupRunsOf st.trace ++ [gIdx] ∧
    (∀ m ∈ g.steps, (resultsGet
      (executeParallelGroupM out dur wfId sessId gIdx g st).1.results m.id).isSome = true) ∧
    (∀ i, (∀ m ∈ g.steps, i ≠ m.id) →
      resultsGet (executeParallelGroupM out dur wfId sessId gIdx g st).1.results i =
        resultsGet st.results i) ∧
    (∃ new, dispatchIds (executeParallelGroupM out dur wfId sessId gIdx g st).1.trace =
        dispatchIds st.trace ++ new ∧
      (∀ i ∈ new, ∃ m ∈ g.steps, m.id = i) ∧
      ((g.steps.map (fun m => m.id)).Nodup → new.Nodup)) ∧
    (executeParallelGroupM out dur wfId sessId gIdx g st).1.pending = [] := by
  have hred : executeParallelGroupM out dur wfId sessId gIdx g st =
      ((executeGroupSteps out dur wfId sessId g.steps
          { st with trace := st.trace ++ [.groupRun gIdx st.now] }).1,
       if g.continueOnError then none
       else firstErr (executeGroupSteps out dur wfId sessId g.steps
          { st with trace := st.trace ++ [.groupRun gIdx st.now] }).2) := by
    unfold executeParallelGroupM
    rw [if_pos hwa]
  obtain ⟨hgr, hmem, hother, ⟨new, hnew, hnewmem, hnewnd⟩, hpend⟩ :=
    executeGroupSteps_spec out dur wfId sessId g.steps
      { st with trace := st.trace ++ [.groupRun gIdx st.now] } hp
  rw [hred]
  refine ⟨?_, hmem, hother, ⟨new, ?_, hnewmem, hnewnd⟩, hpend⟩
  · show groupRunsOf (executeGroupSteps out dur wfId sessId g.steps
      { st with trace := st.trace ++ [.groupRun gIdx st.now] }).1.trace = _
    rw [hgr]
    show groupRunsOf (st.trace ++ [.groupRun gIdx st.now]) = _
    rw [groupRunsOf_append]
    rfl
  · show dispatchIds (executeGroupSteps out dur wfId sessId g.steps
      { st with trace := st.trace ++ [.groupRun gIdx st.now] }).1.trace = _
    rw [hnew]
    show dispatchIds (st.trace ++ [.groupRun gIdx st.now]) ++ new = _
    rw [dispatchIds_append]
    simp [dispatchIds]

/-! ### Fully successful executions (towards C9) -/

theorem executeGroupSteps_cons (out : String → StepOutcome) (dur : String → Nat)
    (wfId sessId : String) (m : WStep) (ms : List WStep) (st : ExecState) :
    executeGroupSteps out dur wfId sessId (m :: ms) st =
      ((executeGroupSteps out dur wfId sessId ms
          (executeStepM out dur wfId sessId m st).1).1,
       (executeStepM out dur wfId sessId m st).2 ::
        (executeGroupSteps out dur wfId sessId ms
          (executeStepM out dur wfId sessId m st).1).2) := rfl

theorem head_getD_none (l : List (Option String))
    (h : ∀ e ∈ l, e = none) : l.head?.getD none = none := by
  cases l with
  | nil => rfl
  | cons a rest =>
    have ha : a = none := h a (by simp)
    subst ha
    rfl

theorem findPGAux_some : ∀ (gs : List PGroup) (n : Nat) (i : String)
    (m : Nat) (g : PGroup), findPGAux i n gs = some (m, g) →
    n ≤ m ∧ gs.get? (m - n) = some g ∧ (g.steps.any (fun s => s.id = i)) = true := by
  intro gs
  induction gs with
  | nil => intro n i m g h; cases h
  | cons g0 rest ih =>
    intro n i m g h
    by_cases hany : (g0.steps.any (fun s => s.id = i)) = true
    · rw [findPGAux, if_pos hany] at h
      injection h with h'
      have h1 : n = m := congrArg Prod.fst h'
      have h2 : g0 = g := congrArg Prod.snd h'
      subst h1
      subst h2
      exact ⟨le_refl _, by simp, hany⟩
    · rw [findPGAux, if_neg hany] at h
      obtain ⟨h1, h2, h3⟩ := ih (n + 1) i m g h
      refine ⟨by omega, ?_, h3⟩
      have hmn : m - n = (m - (n + 1)) + 1 := by omega
      rw [hmn]
      simpa using h2

theorem findPGAux_none : ∀ (gs : List PGroup) (n : Nat) (i : String),
    findPGAux i n gs = none →
    ∀ g ∈ gs, (g.steps.any (fun s => s.id = i)) = false := by
  intro gs
  induction gs with
  | nil => intro n i _ g hg; cases hg
  | cons g0 rest ih =>
    intro n i h g hg
    by_cases hany : (g0.steps.any (fun s => s.id = i)) = true
    · rw [findPGAux, if_pos hany] at h
      cases h
    · rw [findPGAux, if_neg hany] at h
      rcases List.mem_cons.mp hg with rfl | hg'
      · simpa using hany
      · exact ih (n + 1) i h g hg'

theorem findPGAux_complete : ∀ (gs : List PGroup) (n k : Nat) (i : String)
    (g : PGroup), gs.get? k = some g → (g.steps.any (fun s => s.id = i)) = true →
    (∀ j g', j ≠ k → gs.get? j = some g' →
      (g'.steps.any (fun s => s.id = i)) = false) →
    findPGAux i n gs = some (n + k, g) := by
  intro gs
  induction gs with
  | nil => intro n k i g hk; cases hk
  | cons g0 rest ih =>
    intro n k i g hk hany hothers
    cases k with
    | zero =>
      have hg : g0 = g := by simpa using hk
      subst hg
      rw [findPGAux, if_pos hany]
      simp
    | succ k' =>
      have h0 : (g0.steps.any (fun s => s.id = i)) = false :=
        hothers 0 g0 (by omega) (by simp)
      rw [findPGAux, if_neg (by simp [h0])]
      have := ih (n + 1) k' i g (by simpa using hk) hany
        (by
          intro j g' hj hg'
          exact hothers (j + 1) g' (by omega) (by simpa using hg'))
      rw [this]
      have harith : n + 1 + k' = n + (k' + 1) := by omega
      rw [harith]

/-! ### C6: every parallel group runs as a whole exactly once -/

/-- Distinct parallel groups have disjoint member-id sets (the builder's
`parallel()` synthesizes fresh ids per group). -/
def GroupsDisjoint (groups : List PGroup) : Prop :=
  ∀ n n' g g', groups.get? n = some g → groups.get? n' = some g' → n ≠ n' →
    ∀ m ∈ g.steps, ∀ m' ∈ g'.steps, m.id ≠ m'.id

/-- Loop invariant for C6: dispatches and group runs are duplicate-free,
every dispatched step and every member of a ran group has a recorded
result, and every recorded result belonging to a group means that group
already ran. -/
structure C6Inv (w : WorkflowDefinition) (st : ExecState) : Prop where
  disp_nodup : (dispatchIds st.trace).Nodup
  runs_nodup : (groupRunsOf st.trace).Nodup
  disp_res : ∀ i ∈ dispatchIds st.trace, (resultsGet st.results i).isSome = true
  runs_res : ∀ n ∈ groupRunsOf st.trace, ∀ g, w.parallelGroups.get? n = some g →
    ∀ m ∈ g.steps, (resultsGet st.results m.id).isSome = true
  res_runs : ∀ i, (resultsGet st.results i).isSome = true →
    ∀ n g, w.parallelGroups.get? n = some g →
      (g.steps.any (fun s => s.id = i)) = true → n ∈ groupRunsOf st.trace

/-- Running a whole fresh parallel group preserves the C6 invariant. -/
theorem c6inv_group_preserve (out : String → StepOutcome) (dur : String → Nat)
    (wfId sessId : String) (w : WorkflowDefinition)
    (hdisj : GroupsDisjoint w.parallelGroups) (gIdx : Nat) (g : PGroup)
    (hget : w.parallelGroups.get? gIdx = some g)
    (hgndg : (g.steps.map (fun s => s.id)).Nodup)
    (st : ExecState) (hinv : C6Inv w st)
    (hfreshg : gIdx ∉ groupRunsOf st.trace)
    (hmemfresh : ∀ m ∈ g.steps, ¬ (resultsGet st.results m.id).isSome = true)
    (hwa : g.waitForAll = true) (hp : st.pending = []) :
    C6Inv w (executeParallelGroupM out dur wfId sessId gIdx g st).1 := by
  obtain ⟨hgr, hmem, hother, ⟨new, hnew, hnewmem, hnewnd⟩, -⟩ :=
    executeParallelGroupM_spec out dur wfId sessId gIdx g st hwa hp
  exact
    { disp_nodup := by
        rw [hnew, List.nodup_append]
        refine ⟨hinv.disp_nodup, hnewnd hgndg, ?_⟩
        intro a ha ha'
        obtain ⟨m, hm, hmid⟩ := hnewmem a ha'
        exact hmemfresh m hm (hmid ▸ hinv.disp_res a ha)
      runs_nodup := by
        rw [hgr, List.nodup_append]
        refine ⟨hinv.runs_nodup, List.nodup_singleton _, ?_⟩
        intro a ha ha'
        have : a = gIdx := by simpa using ha'
        exact hfreshg (this ▸ ha)
      disp_res := by
        intro i hi
        rw [hnew] at hi
        rcases List.mem_append.mp hi with hi' | hi'
        · by_cases him : ∀ m ∈ g.steps, i ≠ m.id
          · rw [hother i him]
            exact hinv.disp_res i hi'
          · push_neg at him
            obtain ⟨m, hm, hmid⟩ := him
            rw [hmid]
            exact hmem m hm
        · obtain ⟨m, hm, hmid⟩ := hnewmem i hi'
          rw [← hmid]
          exact hmem m hm
      runs_res := by
        intro n hn g' hg' m hm
        rw [hgr] at hn
        rcases List.mem_append.mp hn with hn' | hn'
        · by_cases him : ∀ m' ∈ g.steps, m.id ≠ m'.id
          · rw [hother m.id him]
            exact hinv.runs_res n hn' g' hg' m hm
          · push_neg at him
            obtain ⟨m', hm', hmid⟩ := him
            rw [hmid]
            exact hmem m' hm'
        · have hng : n = gIdx := by simpa using hn'
          subst hng
          have hgg : g' = g := by
            rw [hget] at hg'
            exact (Option.some.inj hg').symm
          subst hgg
          exact hmem m hm
      res_runs := by
        intro i hi n g' hg' hany'
        rw [hgr]
        by_cases him : ∀ m ∈ g.steps, i ≠ m.id
        · rw [hother i him] at hi
          exact List.mem_append_left _ (hinv.res_runs i hi n g' hg' hany')
        · push_neg at him
          obtain ⟨m, hm, hmid⟩ := him
          obtain ⟨m', hm', hmid'⟩ : ∃ m' ∈ g'.steps, m'.id = i := by
            simpa using hany'
          by_cases hn : n = gIdx
          · subst hn
            exact List.mem_append_right _ (by simp)
          · exact absurd (hmid' ▸ hmid ▸ rfl : m'.id = m.id).symm
              (hdisj gIdx n g g' hget hg' (fun h => hn h.symm) m hm m' hm') }

/-- Executing one fresh non-member step preserves the C6 invariant. -/
theorem c6inv_step_preserve (out : String → StepOutcome) (dur : String → Nat)
    (wfId sessId : String) (w : WorkflowDefinition)
    (step : WStep) (st : ExecState) (hinv : C6Inv w st)
    (hres' : (resultsGet st.results step.id).isSome = false)
    (hnog : ∀ g' ∈ w.parallelGroups,
      (g'.steps.any (fun t => t.id = step.id)) = false)
    (hp : st.pending = []) :
    C6Inv w (executeStepM out dur wfId sessId step st).1 := by
  obtain ⟨hdid, hgr, hself, hother, -⟩ :=
    executeStepM_spec out dur wfId sessId step st hp
  exact
    { disp_nodup := by
        rcases hdid with hd | hd
        · rw [hd]; exact hinv.disp_nodup
        · rw [hd, List.nodup_append]
          refine ⟨hinv.disp_nodup, List.nodup_singleton _, ?_⟩
          intro a ha ha'
          have haeq : a = step.id := by simpa using ha'
          rw [haeq] at ha
          rw [hinv.disp_res step.id ha] at hres'
          cases hres'
      runs_nodup := by rw [hgr]; exact hinv.runs_nodup
      disp_res := by
        intro i hi
        by_cases hij : i = step.id
        · rw [hij]; exact hself
        · rw [hother i hij]
          apply hinv.disp_res
          rcases hdid with hd | hd
          · rwa [hd] at hi
          · rw [hd] at hi
            rcases List.mem_append.mp hi with h | h
            · exact h
            · exact absurd (by simpa using h) hij
      runs_res := by
        intro n hn g' hg' m hm
        rw [hgr] at hn
        have hmne : m.id ≠ step.id := by
          intro hmid
          have := hnog g' (List.get?_mem hg')
          rw [List.any_eq_false] at this
          exact this m hm (by simp [hmid])
        rw [hother m.id hmne]
        exact hinv.runs_res n hn g' hg' m hm
      res_runs := by
        intro i hi n g' hg' hany'
        rw [hgr]
        by_cases hij : i = step.id
        · subst hij
          have := hnog g' (List.get?_mem hg')
          rw [hany'] at this
          cases this
        · rw [hother i hij] at hi
          exact hinv.res_runs i hi n g' hg' hany' }

theorem execLoop_c6 (out : String → StepOutcome) (dur : String → Nat)
    (w : WorkflowDefinition) (sessId : String)
    (hdisj : GroupsDisjoint w.parallelGroups)
    (hgnd : ∀ g ∈ w.parallelGroups, (g.steps.map (fun s => s.id)).Nodup)
    (hwfa : ∀ g ∈ w.parallelGroups, g.waitForAll = true) :
    ∀ (order : List WStep) (st : ExecState),
      (order.map (fun s => s.id)).Nodup →
      (∀ s ∈ order, findParallelGroup s w.parallelGroups = none →
        (resultsGet st.results s.id).isSome = false) →
      st.pending = [] →
      C6Inv w st →
      C6Inv w (execLoop out dur w sessId order st).1 ∧
      (∀ n ∈ groupRunsOf st.trace,
        n ∈ groupRunsOf (execLoop out dur w sessId order st).1.trace) ∧
      ((execLoop out dur w sessId order st).2 = none →
        ∀ s ∈ order, ∀ p, findParallelGroup s w.parallelGroups = some p →
          p.1 ∈ groupRunsOf (execLoop out dur w sessId order st).1.trace) := by
  intro order
  induction order with
  | nil =>
    intro st _ _ _ hinv
    exact ⟨hinv, fun n h => h, by intro _ s hs; cases hs⟩
  | cons step rest ih =>
    intro st hnd hfresh hpend hinv
    have hndrest : (rest.map (fun s => s.id)).Nodup := by
      rw [List.map_cons, List.nodup_cons] at hnd
      exact hnd.2
    have hndhead : step.id ∉ rest.map (fun s => s.id) := by
      rw [List.map_cons, List.nodup_cons] at hnd
      exact hnd.1
    cases hfind : findParallelGroup step w.parallelGroups with
    | some p =>
      obtain ⟨gIdx, g⟩ := p
      obtain ⟨-, hget0, hany⟩ := findPGAux_some w.parallelGroups 0 step.id gIdx g hfind
      have hget : w.parallelGroups.get? gIdx = some g := by simpa using hget0
      have hgmem : g ∈ w.parallelGroups := List.get?_mem hget
      obtain ⟨mw, hmw, hmwid⟩ : ∃ m ∈ g.steps, m.id = step.id := by
        simpa using hany
      by_cases hres : (resultsGet st.results step.id).isSome = true
      · -- the whole group already ran: skip this member
        have hrun : execLoop out dur w sessId (step :: rest) st =
            execLoop out dur w sessId rest st := by
          simp only [execLoop, hfind]
          rw [if_pos hres]
        obtain ⟨hinv2, hmono2, hcomp2⟩ :=
          ih st hndrest (fun s hs => hfresh s (by simp [hs])) hpend hinv
        rw [hrun]
        refine ⟨hinv2, hmono2, ?_⟩
        intro herr s hs p' hp'
        rcases List.mem_cons.mp hs with hEq | hs'
        · subst hEq
          rw [hfind] at hp'
          injection hp' with hp''
          subst hp''
          exact hmono2 gIdx (hinv.res_runs s.id hres gIdx g hget hany)
        · exact hcomp2 herr s hs' p' hp'
      · -- fresh: run the whole group here
        obtain ⟨hgr, hmem, hother, ⟨new, hnew, hnewmem, hnewnd⟩, hpend1⟩ :=
          executeParallelGroupM_spec out dur w.id sessId gIdx g st
            (hwfa g hgmem) hpend
        have hres' : (resultsGet st.results step.id).isSome = false := by
          cases h : (resultsGet st.results step.id).isSome
          · rfl
          · exact absurd h hres
        -- the group has not run yet
        have hfreshg : gIdx ∉ groupRunsOf st.trace := by
          intro hmemr
          have := hinv.runs_res gIdx hmemr g hget mw hmw
          rw [hmwid] at this
          exact hres this
        -- no member has a result yet
        have hmemfresh : ∀ m ∈ g.steps, ¬ (resultsGet st.results m.id).isSome = true := by
          intro m hm hsome
          exact hfreshg (hinv.res_runs m.id hsome gIdx g hget
            (by simp [List.any_eq_true]; exact ⟨m, hm, rfl⟩))
        have hinv1 : C6Inv w (executeParallelGroupM out dur w.id sessId gIdx g st).1 :=
          c6inv_group_preserve out dur w.id sessId w hdisj gIdx g hget
            (hgnd g hgmem) st hinv hfreshg hmemfresh (hwfa g hgmem) hpend
        have hfresh1 : ∀ s ∈ rest, findParallelGroup s w.parallelGroups = none →
            (resultsGet (executeParallelGroupM out dur w.id sessId gIdx g st).1.results
              s.id).isSome = false := by
          intro s hs hsnone
          have hnog : ∀ g' ∈ w.parallelGroups,
              (g'.steps.any (fun t => t.id = s.id)) = false :=
            findPGAux_none w.parallelGroups 0 s.id hsnone
          have hodd : ∀ m ∈ g.steps, s.id ≠ m.id := by
            intro m hm hmid
            have := hnog g hgmem
            rw [List.any_eq_false] at this
            exact this m hm (by simp [hmid])
          rw [hother s.id hodd]
          exact hfresh s (by simp [hs]) hsnone
        cases herr : (executeParallelGroupM out dur w.id sessId gIdx g st).2 with
        | some e =>
          have hrun : execLoop out dur w sessId (step :: rest) st =
              ((executeParallelGroupM out dur w.id sessId gIdx g st).1,
               some (.stepFailed e)) := by
            simp only [execLoop, hfind]
            rw [if_neg (by simp [hres'])]
            simp only [herr]
          rw [hrun]
          refine ⟨hinv1, ?_, by intro h; cases h⟩
          intro n hn
          rw [hgr]
          exact List.mem_append_left _ hn
        | none =>
          by_cases htm : checkTimeout w
              (executeParallelGroupM out dur w.id sessId gIdx g st).1 = true
          · have hrun : execLoop out dur w sessId (step :: rest) st =
                ((executeParallelGroupM out dur w.id sessId gIdx g st).1,
                 some .workflowTimeout) := by
              simp only [execLoop, hfind]
              rw [if_neg (by simp [hres'])]
              simp only [herr]
              rw [if_pos htm]
            rw [hrun]
            refine ⟨hinv1, ?_, by intro h; cases h⟩
            intro n hn
            rw [hgr]
            exact List.mem_append_left _ hn
          · have hrun : execLoop out dur w sessId (step :: rest) st =
                execLoop out dur w sessId rest
                  (executeParallelGroupM out dur w.id sessId gIdx g st).1 := by
              simp only [execLoop, hfind]
              rw [if_neg (by simp [hres'])]
              simp only [herr]
              rw [if_neg htm]
            obtain ⟨hinv2, hmono2, hcomp2⟩ := ih
              (executeParallelGroupM out dur w.id sessId gIdx g st).1
              hndrest hfresh1 hpend1 hinv1
            rw [hrun]
            refine ⟨hinv2, ?_, ?_⟩
            · intro n hn
              refine hmono2 n ?_
              rw [hgr]
              exact List.mem_append_left _ hn
            · intro herr2 s hs p' hp'
              rcases List.mem_cons.mp hs with hEq | hs'
              · subst hEq
                rw [hfind] at hp'
                injection hp' with hp''
                subst hp''
                refine hmono2 gIdx ?_
                rw [hgr]
                exact List.mem_append_right _ (by simp)
              · exact hcomp2 herr2 s hs' p' hp'
    | none =>
      obtain ⟨hdid, hgr, hself, hother, hpend1⟩ :=
        executeStepM_spec out dur w.id sessId step st hpend
      have hres' : (resultsGet st.results step.id).isSome = false :=
        hfresh step (by simp) hfind
      have hnog : ∀ g' ∈ w.parallelGroups,
          (g'.steps.any (fun t => t.id = step.id)) = false :=
        findPGAux_none w.parallelGroups 0 step.id hfind
      have hinv1 : C6Inv w (executeStepM out dur w.id sessId step st).1 :=
        c6inv_step_preserve out dur w.id sessId w step st hinv hres' hnog hpend
      have hfresh1 : ∀ s ∈ rest, findParallelGroup s w.parallelGroups = none →
          (resultsGet (executeStepM out dur w.id sessId step st).1.results
            s.id).isSome = false := by
        intro s hs hsnone
        have hsne : s.id ≠ step.id := by
          intro h
          exact hndhead (h ▸ List.mem_map_of_mem (fun x => x.id) hs)
        rw [hother s.id hsne]
        exact hfresh s (by simp [hs]) hsnone
      cases herr : (executeStepM out dur w.id sessId step st).2 with
      | some e =>
        have hrun : execLoop out dur w sessId (step :: rest) st =
            ((executeStepM out dur w.id sessId step st).1,
             some (.stepFailed e)) := by
          simp only [execLoop, hfind]
          simp only [herr]
        rw [hrun]
        refine ⟨hinv1, ?_, by intro h; cases h⟩
        intro n hn
        rw [hgr]
        exact hn
      | none =>
        by_cases htm : checkTimeout w (executeStepM out dur w.id sessId step st).1 = true
        · have hrun : execLoop out dur w sessId (step :: rest) st =
              ((executeStepM out dur w.id sessId step st).1,
               some .workflowTimeout) := by
            simp only [execLoop, hfind]
            simp only [herr]
            rw [if_pos htm]
          rw [hrun]
          refine ⟨hinv1, ?_, by intro h; cases h⟩
          intro n hn
          rw [hgr]
          exact hn
        · have hrun : execLoop out dur w sessId (step :: rest) st =
              execLoop out dur w sessId rest
                (executeStepM out dur w.id sessId step st).1 := by
            simp only [execLoop, hfind]
            simp only [herr]
            rw [if_neg htm]
          obtain ⟨hinv2, hmono2, hcomp2⟩ := ih
            (executeStepM out dur w.id sessId step st).1 hndrest hfresh1 hpend1 hinv1
          rw [hrun]
          refine ⟨hinv2, ?_, ?_⟩
          · intro n hn
            refine hmono2 n ?_
            rw [hgr]
            exact hn
          · intro herr2 s hs p' hp'
            rcases List.mem_cons.mp hs with hEq | hs'
            · subst hEq
              rw [hfind] at hp'
              cases hp'
            · exact hcomp2 herr2 s hs' p' hp'

/--
**C6 (amended).**  During one workflow execution of a valid graph whose
parallel groups are well-formed (duplicate-free member ids,
pairwise-disjoint groups, members drawn from the graph's steps) and all
wait for their members (`waitForAll = true`, the builder's default —
with `waitForAll = false` the loop resumes at the group's first
settlement and an unsettled member triggers a re-execution of the whole
group, see the counterexample): no step is ever dispatched more than
once and no parallel group is ever started more than once — later
members of an already-executed group are skipped rather than
re-dispatched; and when the run completes without error, every nonempty
parallel group was executed as a whole exactly once, triggered at the
first of its member steps reached in the resolved execution order.
-/
theorem parallel_group_exactly_once (out : String → StepOutcome)
    (dur : String → Nat) (sessId : String) (w : WorkflowDefinition)
    (hnd : (stepIds w.steps).Nodup) (hRes : AllDepsResolve w.steps)
    (hacyc : Acyclic w.steps)
    (hdisj : GroupsDisjoint w.parallelGroups)
    (hgnd : ∀ g ∈ w.parallelGroups, (g.steps.map (fun s => s.id)).Nodup)
    (hmem : ∀ g ∈ w.parallelGroups, ∀ m ∈ g.steps, m ∈ w.steps)
    (hwfa : ∀ g ∈ w.parallelGroups, g.waitForAll = true) :
    (∀ i, (dispatchIds (executeWorkflowM out dur w sessId).1.trace).count i ≤ 1) ∧
    (∀ n, (groupRunsOf (executeWorkflowM out dur w sessId).1.trace).count n ≤ 1) ∧
    ((executeWorkflowM out dur w sessId).2 = none →
      ∀ n g, w.parallelGroups.get? n = some g → g.steps ≠ [] →
        (groupRunsOf (executeWorkflowM out dur w sessId).1.trace).count n = 1) := by
  obtain ⟨order, hord, hcontains, htopo, hordnd, hordmem⟩ :=
    resolveExecutionOrder_props w.steps hnd hRes hacyc
  have hw : executeWorkflowM out dur w sessId =
      execLoop out dur w sessId order ({} : ExecState) := by
    unfold executeWorkflowM
    rw [hord]
  have hinit : C6Inv w ({} : ExecState) :=
    { disp_nodup := List.nodup_nil
      runs_nodup := List.nodup_nil
      disp_res := by intro i hi; cases hi
      runs_res := by intro n hn; cases hn
      res_runs := by
        intro i hi
        simp [resultsGet] at hi }
  obtain ⟨hinv', hmono, hcomp⟩ :=
    execLoop_c6 out dur w sessId hdisj hgnd hwfa order {} hordnd
      (by intro s _ _; rfl) rfl hinit
  rw [hw]
  refine ⟨?_, ?_, ?_⟩
  · intro i
    exact List.nodup_iff_count_le_one.mp hinv'.disp_nodup i
  · intro n
    exact List.nodup_iff_count_le_one.mp hinv'.runs_nodup n
  · intro herr n g hget hne
    obtain ⟨m, hm⟩ := List.exists_mem_of_ne_nil g.steps hne
    have hgmem : g ∈ w.parallelGroups := List.get?_mem hget
    have hmorder : m ∈ order := hcontains m (hmem g hgmem m hm)
    have hfindm : findParallelGroup m w.parallelGroups = some (n, g) := by
      have := findPGAux_complete w.parallelGroups 0 n m.id g hget
        (by simp [List.any_eq_true]; exact ⟨m, hm, rfl⟩)
        (by
          intro j g' hj hg'
          cases hval : (g'.steps.any (fun s => s.id = m.id)) with
          | false => rfl
          | true =>
            obtain ⟨m', hm', hmid'⟩ : ∃ m' ∈ g'.steps, m'.id = m.id := by
              simpa using hval
            exact absurd hmid'
              (hdisj j n g' g hg' hget hj m' hm' m hm))
      simpa [findParallelGroup] using this
    have hmemrun : n ∈ groupRunsOf (execLoop out dur w sessId order
        ({} : ExecState)).1.trace := by
      exact hcomp herr m hmorder (n, g) hfindm
    have h1 : (groupRunsOf (execLoop out dur w sessId order
        ({} : ExecState)).1.trace).count n ≤ 1 :=
      List.nodup_iff_count_le_one.mp hinv'.runs_nodup n
    have h2 : 0 < (groupRunsOf (execLoop out dur w sessId order
        ({} : ExecState)).1.trace).count n :=
      List.count_pos_iff.mpr hmemrun
    omega

/--
Witness for C6: a two-member parallel group in an otherwise trivial
graph runs exactly once on a completed execution.
-/
theorem parallel_group_exactly_once_witness :
    (groupRunsOf (executeWorkflowM (fun _ => .ok (.vStr "r")) (fun _ => 0)
      { id := "w"
        steps := [{ id := "p0", agentId := "A", intent := "x" },
                  { id := "p1", agentId := "B", intent := "y" }]
        parallelGroups := [⟨[{ id := "p0", agentId := "A", intent := "x" },
                             { id := "p1", agentId := "B", intent := "y" }],
                           true, false⟩] }
      "s").1.trace).count 0 = 1 := by
  refine (parallel_group_exactly_once (fun _ => .ok (.vStr "r")) (fun _ => 0) "s"
    { id := "w"
      steps := [{ id := "p0", agentId := "A", intent := "x" },
                { id := "p1", agentId := "B", intent := "y" }]
      parallelGroups := [⟨[{ id := "p0", agentId := "A", intent := "x" },
                           { id := "p1", agentId := "B", intent := "y" }],
                         true, false⟩] }
    (by decide)
    (by unfold AllDepsResolve; decide)
    ⟨fun _ => 0, by unfold RankOK; decide⟩
    ?_
    (by decide)
    (by decide)
    (by decide)).2.2 rfl 0 _ rfl (by decide)
  intro n n' g g' hg hg' hne
  cases n with
  | zero =>
    cases n' with
    | zero => exact absurd rfl hne
    | succ k => simp at hg'
  | succ k => simp at hg

/--
**C6 (counterexample to the original claim).**  With `waitForAll =
false` the source resumes the loop at the group's first settlement
(`Promise.race`, orchestrator.ts line 299), while the other members are
still in flight with no recorded result.  When the loop then reaches
the slow member's own entry, `results.has` is false and the whole group
is executed again.  In a two-member race group with durations 1 and
100, both members are dispatched twice and the group is started twice —
refuting "no member step is dispatched more than once" and "each
parallel group is executed as a whole exactly once" — and the slow
member's settlements are still in flight when the run ends, so it never
records a result.
-/
theorem parallel_group_race_counterexample :
    (dispatchIds (executeWorkflowM (fun _ => .ok (.vNum 1))
        (fun i => if i = "a" then 1 else 100)
        { id := "w"
          steps := [{ id := "a", agentId := "A", intent := "i" },
                    { id := "b", agentId := "B", intent := "i" }]
          parallelGroups := [⟨[{ id := "a", agentId := "A", intent := "i" },
                               { id := "b", agentId := "B", intent := "i" }],
                             false, false⟩] } "s").1.trace).count "a" = 2 ∧
    (dispatchIds (executeWorkflowM (fun _ => .ok (.vNum 1))
        (fun i => if i = "a" then 1 else 100)
        { id := "w"
          steps := [{ id := "a", agentId := "A", intent := "i" },
                    { id := "b", agentId := "B", intent := "i" }]
          parallelGroups := [⟨[{ id := "a", agentId := "A", intent := "i" },
                               { id := "b", agentId := "B", intent := "i" }],
                             false, false⟩] } "s").1.trace).count "b" = 2 ∧
    (groupRunsOf (executeWorkflowM (fun _ => .ok (.vNum 1))
        (fun i => if i = "a" then 1 else 100)
        { id := "w"
          steps := [{ id := "a", agentId := "A", intent := "i" },
                    { id := "b", agentId := "B", intent := "i" }]
          parallelGroups := [⟨[{ id := "a", agentId := "A", intent := "i" },
                               { id := "b", agentId := "B", intent := "i" }],
                             false, false⟩] } "s").1.trace).count 0 = 2 ∧
    (executeWorkflowM (fun _ => .ok (.vNum 1))
        (fun i => if i = "a" then 1 else 100)
        { id := "w"
          steps := [{ id := "a", agentId := "A", intent := "i" },
                    { id := "b", agentId := "B", intent := "i" }]
          parallelGroups := [⟨[{ id := "a", agentId := "A", intent := "i" },
                               { id := "b", agentId := "B", intent := "i" }],
                             false, false⟩] } "s").2 = none ∧
    resultsGet (executeWorkflowM (fun _ => .ok (.vNum 1))
        (fun i => if i = "a" then 1 else 100)
        { id := "w"
          steps := [{ id := "a", agentId := "A", intent := "i" },
                    { id := "b", agentId := "B", intent := "i" }]
          parallelGroups := [⟨[{ id := "a", agentId := "A", intent := "i" },
                               { id := "b", agentId := "B", intent := "i" }],
                             false, false⟩] } "s").1.results "b" = none := by
  exact ⟨rfl, rfl, rfl, rfl, rfl⟩

/-! ### C9: the workflow-level timeout is enforced at step boundaries -/

end UACP
